import Mathlib

/-!
Verification of the toy SNFS factorization engine (`snfs.c`).

This file gives a shallow embedding of the core of the program: the wide
modular arithmetic (`mul_mod`, `pow_mod`, `pow_u128`), the factor-base
machinery (`generate_primes`, `factor_with_fb`), the incremental GF(2)
matrix engine (`insert_row`), the congruence-of-squares extractor
(`attempt_dependency`), the Pollard-rho fallback (`pollard_rho_u128`) and
the main collection loop (`snfs_factor`).

Machine integers: the C code works on `unsigned __int128`; we embed values
as `Nat` and insert an explicit `% 2 ^ 128` exactly where the C operation
can wrap (multiplications, shifts and the additions inside `mul_mod`,
`pow_u128`, and the `x + y` sum in the extractor).  C `while` loops are
embedded as fuelled structural recursions; each fuel is chosen so that it
can never be exhausted on the values a `u128` can hold (bounds are noted at
each definition), keeping the embedding extensionally equal to the C code
on its actual domain.
-/

/-- Modulus of the 128-bit unsigned integer type used throughout the C code. -/
def U128LIM : Nat := 2 ^ 128

/-- Maximum number of factor-base entries (`#define MAX_FB 6000`). -/
def MAX_FB : Nat := 6000

/-- Large-prime bound (`#define LP_BOUND 100000000`). -/
def LP_BOUND : Nat := 100000000

/-- Maximum number of relations (`#define MAX_REL 12000`). -/
def MAX_REL : Nat := 12000

/-- Embedding of `gcd_u128`: the C `while (b != 0) { t = b; b = a % b; a = t; }`
loop is exactly Euclid's algorithm, whose defining equations are those of
`Nat.gcd`. -/
def gcd_u128 (a b : Nat) : Nat := Nat.gcd a b

/-- Loop body of `mul_mod` (double-and-add).  One fuel unit per iteration of
`while (b) { if (b & 1) { res += a; if (res >= mod) res -= mod; } a <<= 1;
if (a >= mod) a -= mod; b >>= 1; }`; the `res += a` and `a <<= 1` steps wrap
at `2 ^ 128` like the C `u128` operations.  Since `b` halves each round, the
fuel of 128 used below covers every `b < 2 ^ 128`. -/
def mulModGo : Nat → Nat → Nat → Nat → Nat → Nat
  | 0, res, _, _, m => res % m
  | fuel + 1, res, a, b, m =>
    if b = 0 then res % m
    else
      let res1 := if b % 2 = 1 then
        (let t := (res + a) % U128LIM; if m ≤ t then t - m else t) else res
      let a1 := let t := (a * 2) % U128LIM; if m ≤ t then t - m else t
      mulModGo fuel res1 a1 (b / 2) m

/-- Embedding of `mul_mod(a, b, mod)`: overflow-safe double-and-add modular
multiplication.  The C function first reduces `a %= mod` and then runs the
loop embedded in `mulModGo`. -/
def mul_mod (a b m : Nat) : Nat := mulModGo 128 0 (a % m) b m

/-- Loop body of `pow_mod` (binary exponentiation); one fuel unit per
iteration of `while (exp)`.  `exp` halves each round, so fuel 128 covers
every `exp < 2 ^ 128`. -/
def powModGo : Nat → Nat → Nat → Nat → Nat → Nat
  | 0, result, _, _, _ => result
  | fuel + 1, result, base, e, m =>
    if e = 0 then result
    else
      let r1 := if e % 2 = 1 then mul_mod result base m else result
      let b1 := mul_mod base base m
      powModGo fuel r1 b1 (e / 2) m

/-- Embedding of `pow_mod(base, exp, mod)`: `result = 1; base %= mod;` then
the binary-exponentiation loop. -/
def pow_mod (base e m : Nat) : Nat := powModGo 128 1 (base % m) e m

/-- Embedding of `pow_u128(base, exp)`: `res = 1` multiplied `exp` times by
`base`, each product wrapping at `2 ^ 128` like the C `u128` multiply. -/
def pow_u128 (base : Nat) : Nat → Nat
  | 0 => 1
  | e + 1 => pow_u128 base e * base % U128LIM

-- ===== Correctness of the wide modular arithmetic (claim C9 support) =====

theorem condSub_eq_mod {t m : Nat} (_hm : 0 < m) (ht : t < 2 * m) :
    (if m ≤ t then t - m else t) = t % m := by
  split
  · next hle =>
    rw [Nat.mod_eq_sub_mod hle, Nat.mod_eq_of_lt (by omega)]
  · next hlt =>
    rw [Nat.mod_eq_of_lt (by omega)]

theorem mulModGo_spec (fuel : Nat) : ∀ res a b m : Nat, 0 < m → m ≤ 2 ^ 127 →
    res < m → a < m → b < 2 ^ fuel →
    mulModGo fuel res a b m = (res + a * b) % m := by
  induction fuel with
  | zero =>
    intro res a b m _hm _ hres _ hb
    have hb0 : b = 0 := by simpa using Nat.lt_one_iff.mp hb
    subst hb0
    simp [mulModGo]
  | succ fuel ih =>
    intro res a b m hm hm127 hres ha hb
    by_cases hb0 : b = 0
    · subst hb0; simp [mulModGo]
    · have hW : 2 * m ≤ U128LIM := by
        have : (2 : Nat) ^ 127 * 2 = 2 ^ 128 := by norm_num
        simp only [U128LIM]; omega
      have hra : res + a < U128LIM := by omega
      have haa : a * 2 < U128LIM := by omega
      have hres1 : (if b % 2 = 1 then
          (let t := (res + a) % U128LIM; if m ≤ t then t - m else t) else res)
          = (res + b % 2 * a) % m := by
        by_cases hp : b % 2 = 1
        · rw [if_pos hp]
          simp only [Nat.mod_eq_of_lt hra]
          rw [condSub_eq_mod hm (by omega), hp, one_mul]
        · have hz : b % 2 = 0 := by omega
          rw [if_neg hp, hz, Nat.zero_mul, Nat.add_zero, Nat.mod_eq_of_lt hres]
      have ha1 : (let t := (a * 2) % U128LIM; if m ≤ t then t - m else t)
          = a * 2 % m := by
        simp only [Nat.mod_eq_of_lt haa]
        exact condSub_eq_mod hm (by omega)
      simp only [mulModGo, if_neg hb0, hres1, ha1]
      rw [ih _ _ _ _ hm hm127 (Nat.mod_lt _ hm) (Nat.mod_lt _ hm)
        (by
          have h2 : 2 ^ (fuel + 1) = 2 ^ fuel * 2 := by ring
          omega)]
      have hmm : (res + b % 2 * a) % m + a * 2 % m * (b / 2)
          ≡ (res + b % 2 * a) + a * 2 * (b / 2) [MOD m] :=
        Nat.ModEq.add (Nat.mod_modEq _ _) ((Nat.mod_modEq _ _).mul_right _)
      have hsplit : 2 * (b / 2) + b % 2 = b := Nat.div_add_mod b 2
      have heq : res + b % 2 * a + a * 2 * (b / 2) = res + a * b := by
        conv_rhs => rw [← hsplit]
        ring
      calc ((res + b % 2 * a) % m + a * 2 % m * (b / 2)) % m
          = (res + b % 2 * a + a * 2 * (b / 2)) % m := hmm
        _ = (res + a * b) % m := by rw [heq]

theorem mulModGo_lt (fuel : Nat) : ∀ res a b m : Nat, 0 < m →
    mulModGo fuel res a b m < m := by
  induction fuel with
  | zero => intro res a b m hm; exact Nat.mod_lt _ hm
  | succ fuel ih =>
    intro res a b m hm
    by_cases hb0 : b = 0
    · subst hb0; simpa [mulModGo] using Nat.mod_lt res hm
    · simp only [mulModGo, if_neg hb0]
      exact ih _ _ _ _ hm

theorem mul_mod_lt (a b m : Nat) (hm : 0 < m) : mul_mod a b m < m :=
  mulModGo_lt 128 _ _ _ _ hm

theorem mul_mod_spec (a b m : Nat) (hm : 0 < m) (hm127 : m ≤ 2 ^ 127)
    (hb : b < 2 ^ 128) : mul_mod a b m = a * b % m := by
  unfold mul_mod
  rw [mulModGo_spec 128 _ _ _ _ hm hm127 (by omega) (Nat.mod_lt _ hm) hb]
  rw [Nat.zero_add, Nat.mod_mul_mod]

theorem mulModGo_mod_one (fuel : Nat) : ∀ res a b : Nat,
    mulModGo fuel res a b 1 = 0 := by
  induction fuel with
  | zero => intro res a b; simp [mulModGo, Nat.mod_one]
  | succ fuel ih =>
    intro res a b
    by_cases hb0 : b = 0
    · subst hb0; simp [mulModGo, Nat.mod_one]
    · simp only [mulModGo, if_neg hb0]
      exact ih _ _ _

theorem powModGo_spec (fuel : Nat) : ∀ result base e m : Nat, 0 < m →
    m ≤ 2 ^ 127 → result < m → base < m → e < 2 ^ fuel →
    powModGo fuel result base e m = result * base ^ e % m := by
  induction fuel with
  | zero =>
    intro result base e m hm _ hr _ he
    have he0 : e = 0 := by simpa using Nat.lt_one_iff.mp he
    subst he0
    simp [powModGo, Nat.mod_eq_of_lt hr]
  | succ fuel ih =>
    intro result base e m hm hm127 hr hbase he
    by_cases he0 : e = 0
    · subst he0; simp [powModGo, Nat.mod_eq_of_lt hr]
    · have hb128 : base < 2 ^ 128 := by
        have : (2:Nat) ^ 127 < 2 ^ 128 := by norm_num
        omega
      have hr1 : (if e % 2 = 1 then mul_mod result base m else result)
          = result * base ^ (e % 2) % m := by
        by_cases hp : e % 2 = 1
        · simp only [hp, if_pos rfl, pow_one]
          exact mul_mod_spec _ _ _ hm hm127 hb128
        · have hz : e % 2 = 0 := by omega
          simp [hp, hz, Nat.mod_eq_of_lt hr]
      have hb1 : mul_mod base base m = base * base % m :=
        mul_mod_spec _ _ _ hm hm127 hb128
      simp only [powModGo, if_neg he0, hr1, hb1]
      rw [ih _ _ _ _ hm hm127 (Nat.mod_lt _ hm) (Nat.mod_lt _ hm)
        (by
          have h2 : 2 ^ (fuel + 1) = 2 ^ fuel * 2 := by ring
          omega)]
      have hmm : result * base ^ (e % 2) % m * ((base * base % m) ^ (e / 2))
          ≡ result * base ^ (e % 2) * ((base * base) ^ (e / 2)) [MOD m] :=
        Nat.ModEq.mul (Nat.mod_modEq _ _) ((Nat.mod_modEq _ _).pow _)
      have heq : result * base ^ (e % 2) * ((base * base) ^ (e / 2))
          = result * base ^ e := by
        rw [show base * base = base ^ 2 by ring, ← pow_mul, mul_assoc, ← pow_add]
        congr 2
        omega
      calc (result * base ^ (e % 2) % m * ((base * base % m) ^ (e / 2))) % m
          = (result * base ^ (e % 2) * ((base * base) ^ (e / 2))) % m := hmm
        _ = result * base ^ e % m := by rw [heq]

theorem powModGo_res_zero_mod_one (fuel : Nat) : ∀ base e : Nat,
    powModGo fuel 0 base e 1 = 0 := by
  induction fuel with
  | zero => intro base e; simp [powModGo]
  | succ fuel ih =>
    intro base e
    by_cases he0 : e = 0
    · subst he0; simp [powModGo]
    · simp only [powModGo, if_neg he0]
      have h0 : (if e % 2 = 1 then mul_mod 0 base 1 else 0) = 0 := by
        split
        · simp [mul_mod, mulModGo_mod_one]
        · rfl
      rw [h0]
      exact ih _ _

theorem powModGo_mod_one_pos (fuel : Nat) : ∀ result base e : Nat, 0 < e →
    e < 2 ^ fuel → powModGo fuel result base e 1 = 0 := by
  induction fuel with
  | zero => intro result base e he hlt; omega
  | succ fuel ih =>
    intro result base e he hlt
    have he0 : e ≠ 0 := by omega
    simp only [powModGo, if_neg he0]
    by_cases hp : e % 2 = 1
    · have h0 : (if e % 2 = 1 then mul_mod result base 1 else result) = 0 := by
        rw [if_pos hp]; simp [mul_mod, mulModGo_mod_one]
      rw [h0]
      exact powModGo_res_zero_mod_one fuel _ _
    · rw [if_neg hp]
      exact ih _ _ _ (by omega) (by
        have h2 : 2 ^ (fuel + 1) = 2 ^ fuel * 2 := by ring
        omega)

theorem pow_mod_spec (base e m : Nat) (hm : 0 < m) (hm127 : m ≤ 2 ^ 127)
    (he : e < 2 ^ 128) (hside : 1 < m ∨ 0 < e) :
    pow_mod base e m = base ^ e % m := by
  rcases Nat.lt_or_ge 1 m with hm1 | hm1
  · unfold pow_mod
    rw [powModGo_spec 128 _ _ _ _ hm hm127 hm1 (Nat.mod_lt _ hm) he]
    rw [one_mul, ← Nat.pow_mod]
  · have hmeq : m = 1 := by omega
    subst hmeq
    rcases hside with h | h
    · omega
    · unfold pow_mod
      rw [powModGo_mod_one_pos 128 _ _ _ h he]
      simp [Nat.mod_one]

-- ===== Claim C9 =====

/-- C9 (corrected): for `0 < m ≤ 2^127` (and `b`, `e` in the `u128` range),
`mul_mod a b m` equals `a * b % m` exactly, and `pow_mod base e m` equals
`base ^ e % m` whenever additionally `1 < m` or `0 < e`.  (The extra side
condition is forced by `pow_mod b 0 1 = 1`, exhibited in the
counterexample.) -/
theorem C9_wide_arithmetic (a b base e m : Nat) (hm : 0 < m)
    (hm127 : m ≤ 2 ^ 127) (hb : b < 2 ^ 128) (he : e < 2 ^ 128) :
    mul_mod a b m = a * b % m ∧
    ((1 < m ∨ 0 < e) → pow_mod base e m = base ^ e % m) :=
  ⟨mul_mod_spec a b m hm hm127 hb,
   fun hside => pow_mod_spec base e m hm hm127 he hside⟩

/-- C9 counterexample: the claim as stated fails at `m = 1`, `e = 0`:
`pow_mod` returns its initial accumulator 1, but `b ^ 0 % 1 = 0`. -/
theorem C9_counterexample : pow_mod 0 0 1 = 1 ∧ (0 : Nat) ^ 0 % 1 = 0 :=
  ⟨rfl, rfl⟩

/-- C9 witness: concrete instance `mul_mod 3 9 7` and `pow_mod 2 5 7`. -/
theorem C9_witness :
    (0 < (7 : Nat) ∧ (7 : Nat) ≤ 2 ^ 127 ∧ (9 : Nat) < 2 ^ 128 ∧
      (5 : Nat) < 2 ^ 128) ∧
    mul_mod 3 9 7 = 3 * 9 % 7 ∧ pow_mod 2 5 7 = 2 ^ 5 % 7 :=
  ⟨⟨by norm_num, by norm_num, by norm_num, by norm_num⟩,
   (C9_wide_arithmetic 3 9 2 5 7 (by norm_num) (by norm_num) (by norm_num)
      (by norm_num)).1,
   (C9_wide_arithmetic 3 9 2 5 7 (by norm_num) (by norm_num) (by norm_num)
      (by norm_num)).2 (Or.inl (by norm_num))⟩

-- ===== Relations and the congruence extractor =====

/-- Embedding of `struct Relation`: offset `k` (so `a = m + k`), rational-side
exponents and algebraic-side exponents.  The C struct holds fixed `MAX_FB`
arrays zero-initialised by `memset`; we embed them as lists read with
default 0 beyond their length. -/
structure Relation where
  a_offset : Nat
  r_exp : List Nat
  a_exp : List Nat
deriving DecidableEq

/-- Inner accumulation of `attempt_dependency`: summed exponent at column `j`
of one side over the relations selected by `dep_mask` (the C loop
`for (i = 0; i < relation_count; i++) if (mask bit i) total[j] += exp[j]`),
with `i` the index of the relation in the store. -/
def depTotalGo (mask : Nat) (side : Relation → List Nat) (j : Nat) :
    Nat → List Relation → Nat
  | _, [] => 0
  | i, r :: rs =>
    (if mask.testBit i then (side r).getD j 0 else 0) +
      depTotalGo mask side j (i + 1) rs

/-- Summed exponent at column `j` over the selected relations. -/
def depTotal (mask : Nat) (side : Relation → List Nat) (j : Nat)
    (rels : List Relation) : Nat :=
  depTotalGo mask side j 0 rels

/-- Square-root product loop of `attempt_dependency` for one side:
`for (j...) if (total[j]) acc = mul_mod(acc, pow_mod(primes[j], total[j]/2, n), n)`. -/
def extractGo (mask : Nat) (rels : List Relation) (side : Relation → List Nat)
    (n : Nat) : Nat → List Nat → Nat → Nat
  | _, [], acc => acc
  | j, p :: ps, acc =>
    let t := depTotal mask side j rels
    let acc1 := if t ≠ 0 then mul_mod acc (pow_mod p (t / 2) n) n else acc
    extractGo mask rels side n (j + 1) ps acc1

/-- Tail of `attempt_dependency`: given the two square roots `x` and `y`,
try `g = gcd(|x - y|, n)` and then `g = gcd((x + y) reduced once by n, n)`,
returning the first nontrivial `g` and otherwise 0.  The C sum `x + y` is a
`u128` addition, hence the wrap at `2 ^ 128`. -/
def gcd_attempts (x y n : Nat) : Nat :=
  let diff := if x > y then x - y else y - x
  let g := gcd_u128 diff n
  if 1 < g ∧ g < n then g
  else
    let s0 := (x + y) % U128LIM
    let s1 := if s0 ≥ n then s0 - n else s0
    let g2 := gcd_u128 s1 n
    if 1 < g2 ∧ g2 < n then g2 else 0

/-- Embedding of `attempt_dependency(dep_mask, dep_words, primes, fb_size, n)`:
build `x` from the rational side and `y` from the algebraic side, then run
the two gcd attempts of `gcd_attempts`.  `rels` is the relation store
truncated at the current `relation_count` and `primes` the factor base
truncated at `fb_size`. -/
def attempt_dependency (mask : Nat) (rels : List Relation)
    (primes : List Nat) (n : Nat) : Nat :=
  let x := extractGo mask rels (fun r => r.r_exp) n 0 primes 1
  let y := extractGo mask rels (fun r => r.a_exp) n 0 primes 1
  gcd_attempts x y n

theorem gcd_attempts_sound (x y n : Nat) (h : gcd_attempts x y n ≠ 0) :
    n % gcd_attempts x y n = 0 ∧ 1 < gcd_attempts x y n ∧
    gcd_attempts x y n < n := by
  unfold gcd_attempts at h ⊢
  simp only [gcd_u128] at h ⊢
  generalize (if x > y then x - y else y - x) = d at h ⊢
  generalize (if (x + y) % U128LIM ≥ n then (x + y) % U128LIM - n
    else (x + y) % U128LIM) = s at h ⊢
  by_cases h1 : 1 < Nat.gcd d n ∧ Nat.gcd d n < n
  · rw [if_pos h1]
    exact ⟨Nat.mod_eq_zero_of_dvd (Nat.gcd_dvd_right d n), h1.1, h1.2⟩
  · rw [if_neg h1]
    by_cases h2 : 1 < Nat.gcd s n ∧ Nat.gcd s n < n
    · rw [if_pos h2]
      exact ⟨Nat.mod_eq_zero_of_dvd (Nat.gcd_dvd_right s n), h2.1, h2.2⟩
    · rw [if_neg h1, if_neg h2] at h
      exact absurd rfl h

-- ===== Claim C1 =====

/-- C1 (confirmed): soundness of the congruence extractor.  For every `n`,
factor base, relation store and dependency mask, if `attempt_dependency`
returns a nonzero `g` then `n mod g = 0` and `1 < g < n`. -/
theorem C1_extractor_sound (mask : Nat) (rels : List Relation)
    (primes : List Nat) (n : Nat)
    (h : attempt_dependency mask rels primes n ≠ 0) :
    n % attempt_dependency mask rels primes n = 0 ∧
    1 < attempt_dependency mask rels primes n ∧
    attempt_dependency mask rels primes n < n :=
  gcd_attempts_sound _ _ n h

/-- C1 witness: a store with one relation of algebraic exponent 4 on prime 2,
mask selecting it, `n = 15`: the extractor returns the factor 3. -/
theorem C1_witness :
    attempt_dependency 1 [⟨0, [], [4]⟩] [2] 15 ≠ 0 ∧
    15 % attempt_dependency 1 [⟨0, [], [4]⟩] [2] 15 = 0 ∧
    1 < attempt_dependency 1 [⟨0, [], [4]⟩] [2] 15 ∧
    attempt_dependency 1 [⟨0, [], [4]⟩] [2] 15 < 15 :=
  ⟨by decide, C1_extractor_sound 1 [⟨0, [], [4]⟩] [2] 15 (by decide)⟩

-- ===== Pollard-rho fallback =====

/-- Embedding of `rho_func(x, c, n) = (mul_mod(x, x, n) + c) % n`; the `+ c`
is a `u128` addition (wrap at `2 ^ 128`) before the reduction mod `n`. -/
def rho_func (x c n : Nat) : Nat := (mul_mod x x n + c) % U128LIM % n

/-- Inner Floyd loop of `pollard_rho_u128`: one fuel unit per iteration of
`for (i = 0; i < 200000; i++)`, starting from `x = y = 2`; returns the
factor `d` as soon as `1 < d < n`, and 0 when the iteration cap expires. -/
def pollardIter (c n : Nat) : Nat → Nat → Nat → Nat
  | 0, _, _ => 0
  | fuel + 1, x, y =>
    let x1 := rho_func x c n
    let y1 := rho_func (rho_func y c n) c n
    let diff := if x1 > y1 then x1 - y1 else y1 - x1
    let d := gcd_u128 diff n
    if 1 < d ∧ d < n then d else pollardIter c n fuel x1 y1

/-- Outer attempt loop of `pollard_rho_u128`: 5 attempts with constants
`c = 1, 3, 5, 7, 9` (`c += 2` per attempt), each bounded by 200000 Floyd
steps; 0 signals exhaustion. -/
def pollardTries (n : Nat) : Nat → Nat → Nat
  | 0, _ => 0
  | att + 1, c =>
    let d := pollardIter c n 200000 2 2
    if d = 0 then pollardTries n att (c + 2) else d

/-- Embedding of `pollard_rho_u128(n)`: even `n` returns 2 at once, otherwise
the bounded deterministic attempt loop runs. -/
def pollard_rho_u128 (n : Nat) : Nat :=
  if n % 2 = 0 then 2 else pollardTries n 5 1

theorem pollardIter_sound (c n : Nat) : ∀ fuel x y : Nat,
    pollardIter c n fuel x y = 0 ∨
    (1 < pollardIter c n fuel x y ∧ pollardIter c n fuel x y < n ∧
      n % pollardIter c n fuel x y = 0) := by
  intro fuel
  induction fuel with
  | zero => intro x y; left; rfl
  | succ fuel ih =>
    intro x y
    simp only [pollardIter, gcd_u128]
    generalize (if rho_func x c n > rho_func (rho_func y c n) c n
      then rho_func x c n - rho_func (rho_func y c n) c n
      else rho_func (rho_func y c n) c n - rho_func x c n) = df
    by_cases hd : 1 < Nat.gcd df n ∧ Nat.gcd df n < n
    · rw [if_pos hd]
      right
      exact ⟨hd.1, hd.2, Nat.mod_eq_zero_of_dvd (Nat.gcd_dvd_right df n)⟩
    · rw [if_neg hd]
      exact ih _ _

theorem pollardTries_sound (n : Nat) : ∀ att c : Nat,
    pollardTries n att c = 0 ∨
    (1 < pollardTries n att c ∧ pollardTries n att c < n ∧
      n % pollardTries n att c = 0) := by
  intro att
  induction att with
  | zero => intro c; left; rfl
  | succ att ih =>
    intro c
    simp only [pollardTries]
    split
    · exact ih _
    · next hd =>
      rcases pollardIter_sound c n 200000 2 2 with h0 | hgood
      · exact absurd h0 hd
      · right; exact hgood

-- ===== Claim C8 =====

/-- C8 (confirmed): the Pollard-rho fallback contract.  For every `n > 2`,
`pollard_rho_u128 n` (the deterministic constant sequence `c = 1, 3, 5, 7, 9`
with a 200000-step Floyd cap per constant, as in the definitions above)
returns either the exhaustion sentinel 0 or a nontrivial factor `d` with
`1 < d < n` and `n mod d = 0`. -/
theorem C8_pollard_contract (n : Nat) (hn : 2 < n) :
    pollard_rho_u128 n = 0 ∨
    (1 < pollard_rho_u128 n ∧ pollard_rho_u128 n < n ∧
      n % pollard_rho_u128 n = 0) := by
  unfold pollard_rho_u128
  split
  · next heven => right; exact ⟨by norm_num, hn, heven⟩
  · exact pollardTries_sound n 5 1

/-- C8 witness: at `n = 4` the fallback returns the nontrivial factor 2. -/
theorem C8_witness :
    2 < 4 ∧
    (pollard_rho_u128 4 = 0 ∨
      (1 < pollard_rho_u128 4 ∧ pollard_rho_u128 4 < 4 ∧
        4 % pollard_rho_u128 4 = 0)) :=
  ⟨by norm_num, C8_pollard_contract 4 (by norm_num)⟩

-- ===== GF(2) matrix engine =====

/-- Loop body for the lowest-set-bit scan.  `first_set_bit` in C scans the
row words and applies count-trailing-zeros; on a nonzero row the result is
the index of the lowest set bit, which is what this computes. -/
def fsbGo : Nat → Nat → Nat
  | 0, _ => 0
  | fuel + 1, n => if n % 2 = 1 then 0 else fsbGo fuel (n / 2) + 1

/-- Embedding of `first_set_bit` on a nonzero row: index of the lowest set
bit.  Using the number itself as fuel always suffices, since a positive `n`
has fewer than `n` trailing zero bits.  (For an all-zero row the C function
returns -1; `insert_row` only reaches the scan on nonzero rows.) -/
def first_set_bit (n : Nat) : Nat := fsbGo n n

/-- One stored pivot of the bit matrix: its reduced row (`row_bits[r]`), its
combination vector over relation indices (`combo_bits[r]`) and its recorded
pivot column (`pivot_col[r]`).  Bit vectors are embedded as natural numbers
(bit `i` of the `Nat` is bit `i` of the word array). -/
structure Pivot where
  row : Nat
  combo : Nat
  col : Nat
deriving DecidableEq

/-- Reduction loop of `insert_row`: for each stored pivot in insertion
order, if the pivot's column bit is set in `row`, XOR the pivot's row into
`row` and the pivot's combo into `combo`. -/
def insert_reduce : List Pivot → Nat → Nat → Nat × Nat
  | [], row, combo => (row, combo)
  | p :: ps, row, combo =>
    if row.testBit p.col then insert_reduce ps (row ^^^ p.row) (combo ^^^ p.combo)
    else insert_reduce ps row combo

/-- Embedding of `insert_row(row, combo, col_words, combo_words, out_dep)`:
reduce, then either report a dependency (`some` of the reduced combo, matrix
unchanged — the C function returns 1 and fills `out_dep`) or append a new
pivot whose recorded column is the lowest set bit of the reduced row.  (The
C branch `pc < 0` is unreachable there since the reduced row is nonzero.) -/
def insert_row (pivots : List Pivot) (row combo : Nat) : Option Nat × List Pivot :=
  let rc := insert_reduce pivots row combo
  if rc.1 = 0 then (some rc.2, pivots)
  else (none, pivots ++ [⟨rc.1, rc.2, first_set_bit rc.1⟩])

/-- XOR of the rows selected by the bits of `mask`: `maskXorL rows mask` is
the GF(2) combination of `rows` described by the bitset `mask`. -/
def maskXorL : List Nat → Nat → Nat
  | [], _ => 0
  | r :: rs, mask => (if mask.testBit 0 then r else 0) ^^^ maskXorL rs (mask / 2)

/-- State of a run of successive insertions: current pivot list, number of
rows inserted so far, and the dependencies reported (insertion index paired
with the returned combination mask).  This is how `snfs_factor` drives the
engine: the i-th accepted relation is inserted with identity combo `2 ^ i`. -/
structure SeqState where
  matrix : List Pivot
  idx : Nat
  deps : List (Nat × Nat)
deriving DecidableEq

def seqStep (s : SeqState) (r : Nat) : SeqState :=
  match insert_row s.matrix r (2 ^ s.idx) with
  | (some c, M) => ⟨M, s.idx + 1, s.deps ++ [(s.idx, c)]⟩
  | (none, M) => ⟨M, s.idx + 1, s.deps⟩

/-- Run the matrix engine over a list of rows, inserting each with its
identity combination row, exactly as the collection loop does. -/
def insertSeq (rows : List Nat) : SeqState :=
  rows.foldl seqStep ⟨[], 0, []⟩

/-- Rows of the stored pivots, in insertion order. -/
def pivotRows (M : List Pivot) : List Nat := M.map fun p => p.row

/-- Echelon invariant of the stored pivot list: pairwise distinct pivot
columns, no later pivot row keeps a bit at an earlier pivot's column, and
every recorded column is the lowest set bit of its (nonzero) stored row. -/
def EchInv (M : List Pivot) : Prop :=
  M.Pairwise (fun p q => p.col ≠ q.col ∧ q.row.testBit p.col = false) ∧
  ∀ p ∈ M, p.row ≠ 0 ∧ p.col = first_set_bit p.row

/-- Membership of a vector in the GF(2) span of a list of rows, with the
selection mask bounded by the list length. -/
def SpanB (rows : List Nat) (v : Nat) : Prop :=
  ∃ m, m < 2 ^ rows.length ∧ maskXorL rows m = v

-- ===== Bit-level helper lemmas =====

theorem fsbGo_spec (fuel : Nat) : ∀ n, 0 < n → n < 2 ^ fuel →
    Nat.testBit n (fsbGo fuel n) = true ∧
    ∀ j, j < fsbGo fuel n → Nat.testBit n j = false := by
  induction fuel with
  | zero => intro n hn hlt; omega
  | succ fuel ih =>
    intro n hn hlt
    by_cases hodd : n % 2 = 1
    · constructor
      · simp [fsbGo, hodd, Nat.testBit_zero]
      · intro j hj
        simp [fsbGo, hodd] at hj
    · have hhalf : 0 < n / 2 := by omega
      have hhalf2 : n / 2 < 2 ^ fuel := by
        have h2 : 2 ^ (fuel + 1) = 2 ^ fuel * 2 := by ring
        omega
      obtain ⟨h1, h2⟩ := ih (n / 2) hhalf hhalf2
      constructor
      · simp only [fsbGo, if_neg hodd]
        rw [← Nat.testBit_div_two]
        exact h1
      · intro j hj
        simp only [fsbGo, if_neg hodd] at hj
        cases j with
        | zero => simp [Nat.testBit_zero]; omega
        | succ j =>
          rw [← Nat.testBit_div_two]
          exact h2 j (by omega)

theorem first_set_bit_spec (n : Nat) (hn : 0 < n) :
    Nat.testBit n (first_set_bit n) = true ∧
    ∀ j, j < first_set_bit n → Nat.testBit n j = false :=
  fsbGo_spec n n hn (Nat.lt_two_pow n)

theorem xor_div_two (a b : Nat) : (a ^^^ b) / 2 = a / 2 ^^^ b / 2 := by
  apply Nat.eq_of_testBit_eq
  intro i
  simp [Nat.testBit_div_two, Nat.testBit_xor]

theorem xor_rot (a b c : Nat) : a ^^^ (b ^^^ c) = b ^^^ (a ^^^ c) := by
  rw [← Nat.xor_assoc, Nat.xor_comm a b, Nat.xor_assoc]

theorem xor_mix (u v a b : Nat) :
    (u ^^^ v) ^^^ (a ^^^ b) = (u ^^^ a) ^^^ (v ^^^ b) := by
  rw [Nat.xor_assoc, xor_rot v a b, ← Nat.xor_assoc]

theorem if_bool_xor (x y : Bool) (r : Nat) :
    (if x.xor y then r else 0) = (if x then r else 0) ^^^ (if y then r else 0) := by
  cases x <;> cases y <;>
    simp [Nat.xor_self, Nat.xor_zero, Nat.zero_xor]

theorem maskXorL_zero (rows : List Nat) : maskXorL rows 0 = 0 := by
  induction rows with
  | nil => rfl
  | cons r rs ih => simp [maskXorL, Nat.zero_testBit, ih]

theorem maskXorL_linear (rows : List Nat) : ∀ m1 m2,
    maskXorL rows (m1 ^^^ m2) = maskXorL rows m1 ^^^ maskXorL rows m2 := by
  induction rows with
  | nil => intro m1 m2; simp [maskXorL]
  | cons r rs ih =>
    intro m1 m2
    simp only [maskXorL, Nat.testBit_xor, xor_div_two, ih, if_bool_xor]
    exact xor_mix _ _ _ _

theorem maskXorL_two_pow (rows : List Nat) : ∀ i,
    maskXorL rows (2 ^ i) = rows.getD i 0 := by
  induction rows with
  | nil => intro i; rfl
  | cons r rs ih =>
    intro i
    cases i with
    | zero =>
      simp [maskXorL, maskXorL_zero]
    | succ i =>
      have hmod : 2 ^ (i + 1) % 2 = 0 := by
        rw [Nat.pow_succ]
        exact Nat.mul_mod_left _ 2
      have hbit : (2 ^ (i + 1)).testBit 0 = false := by
        simp [Nat.testBit_zero, hmod]
      have hdiv : 2 ^ (i + 1) / 2 = 2 ^ i := by
        rw [Nat.pow_succ, Nat.mul_div_cancel]
        omega
      simp [maskXorL, hbit, hdiv, ih]

theorem maskXorL_append (rows : List Nat) : ∀ (t : List Nat) m,
    m < 2 ^ rows.length → maskXorL (rows ++ t) m = maskXorL rows m := by
  induction rows with
  | nil =>
    intro t m hm
    have hm0 : m = 0 := by simpa using Nat.lt_one_iff.mp (by simpa using hm)
    subst hm0
    simp [maskXorL, maskXorL_zero]
  | cons r rs ih =>
    intro t m hm
    have hdiv : m / 2 < 2 ^ rs.length := by
      have h2 : 2 ^ (rs.length + 1) = 2 ^ rs.length * 2 := by ring
      simp only [List.length_cons] at hm
      omega
    simp [maskXorL, ih t (m / 2) hdiv]

theorem maskXorL_clear (j : Nat) (rows : List Nat)
    (h : ∀ x ∈ rows, x.testBit j = false) : ∀ m,
    (maskXorL rows m).testBit j = false := by
  induction rows with
  | nil => intro m; simp [maskXorL, Nat.zero_testBit]
  | cons r rs ih =>
    intro m
    have hr : r.testBit j = false := h r (by simp)
    have hrest := ih (fun x hx => h x (by simp [hx]))
    simp only [maskXorL, Nat.testBit_xor, hrest]
    cases hm : m.testBit 0 <;> simp [hr, Nat.zero_testBit]

theorem xor_cancel_left (a b : Nat) : a ^^^ (a ^^^ b) = b := by
  rw [← Nat.xor_assoc, Nat.xor_self, Nat.zero_xor]

theorem getD_append_len (l : List Nat) (r : Nat) :
    (l ++ [r]).getD l.length 0 = r := by
  induction l with
  | nil => rfl
  | cons x xs ih =>
    show (x :: (xs ++ [r])).getD (xs.length + 1) 0 = r
    rw [List.getD_cons_succ]
    exact ih

-- ===== Invariants of the insertion loop =====

theorem insert_reduce_clear (j : Nat) : ∀ (M : List Pivot) (r c : Nat),
    r.testBit j = false → (∀ p ∈ M, p.row.testBit j = false) →
    (insert_reduce M r c).1.testBit j = false := by
  intro M
  induction M with
  | nil => intro r c hr _; simpa [insert_reduce] using hr
  | cons p ps ih =>
    intro r c hr hM
    have hp : p.row.testBit j = false := hM p (by simp)
    have hps : ∀ q ∈ ps, q.row.testBit j = false := fun q hq => hM q (by simp [hq])
    simp only [insert_reduce]
    split
    · exact ih _ _ (by simp [Nat.testBit_xor, hr, hp]) hps
    · exact ih _ _ hr hps

theorem pivotRows_cons (p : Pivot) (ps : List Pivot) :
    pivotRows (p :: ps) = p.row :: pivotRows ps := rfl

theorem pivotRows_length (M : List Pivot) :
    (pivotRows M).length = M.length := by simp [pivotRows]

theorem maskXorL_cons_odd (r : Nat) (rs : List Nat) (m : Nat) :
    maskXorL (r :: rs) (2 * m + 1) = r ^^^ maskXorL rs m := by
  have h1 : (2 * m + 1) % 2 = 1 := by omega
  have hdiv : (2 * m + 1) / 2 = m := by omega
  simp [maskXorL, Nat.testBit_zero, h1, hdiv]

theorem maskXorL_cons_even (r : Nat) (rs : List Nat) (m : Nat) :
    maskXorL (r :: rs) (2 * m) = maskXorL rs m := by
  have h1 : (2 * m) % 2 = 0 := by omega
  have hdiv : (2 * m) / 2 = m := by omega
  simp [maskXorL, Nat.testBit_zero, h1, hdiv]

theorem insert_reduce_span (M : List Pivot) : ∀ r c, ∃ mask,
    mask < 2 ^ M.length ∧
    (insert_reduce M r c).1 = r ^^^ maskXorL (pivotRows M) mask := by
  induction M with
  | nil =>
    intro r c
    exact ⟨0, by norm_num, by simp [insert_reduce, pivotRows, maskXorL]⟩
  | cons p ps ih =>
    intro r c
    simp only [insert_reduce]
    split
    · obtain ⟨m, hmlt, heq⟩ := ih (r ^^^ p.row) (c ^^^ p.combo)
      refine ⟨2 * m + 1, ?_, ?_⟩
      · simp only [List.length_cons]
        have h2 : 2 ^ (ps.length + 1) = 2 ^ ps.length * 2 := by ring
        omega
      · rw [heq, pivotRows_cons, maskXorL_cons_odd, Nat.xor_assoc]
    · obtain ⟨m, hmlt, heq⟩ := ih r c
      refine ⟨2 * m, ?_, ?_⟩
      · simp only [List.length_cons]
        have h2 : 2 ^ (ps.length + 1) = 2 ^ ps.length * 2 := by ring
        omega
      · rw [heq, pivotRows_cons, maskXorL_cons_even]

theorem insert_reduce_combo (orig : List Nat) : ∀ (M : List Pivot),
    (∀ p ∈ M, maskXorL orig p.combo = p.row) → ∀ r c, maskXorL orig c = r →
    maskXorL orig (insert_reduce M r c).2 = (insert_reduce M r c).1 := by
  intro M
  induction M with
  | nil => intro _ r c hc; simpa [insert_reduce] using hc
  | cons p ps ih =>
    intro hM r c hc
    have hp : maskXorL orig p.combo = p.row := hM p (by simp)
    have hps : ∀ q ∈ ps, maskXorL orig q.combo = q.row :=
      fun q hq => hM q (by simp [hq])
    simp only [insert_reduce]
    split
    · exact ih hps _ _ (by rw [maskXorL_linear, hc, hp])
    · exact ih hps _ _ hc

theorem insert_reduce_combo_lt (k : Nat) : ∀ (M : List Pivot) (r c : Nat),
    c < 2 ^ k → (∀ p ∈ M, p.combo < 2 ^ k) →
    (insert_reduce M r c).2 < 2 ^ k := by
  intro M
  induction M with
  | nil => intro r c hc _; simpa [insert_reduce] using hc
  | cons p ps ih =>
    intro r c hc hM
    have hp : p.combo < 2 ^ k := hM p (by simp)
    have hps : ∀ q ∈ ps, q.combo < 2 ^ k := fun q hq => hM q (by simp [hq])
    simp only [insert_reduce]
    split
    · exact ih _ _ (Nat.xor_lt_two_pow hc hp) hps
    · exact ih _ _ hc hps

theorem insert_reduce_avoids : ∀ (M : List Pivot), EchInv M → ∀ r c,
    ∀ p ∈ M, (insert_reduce M r c).1.testBit p.col = false := by
  intro M
  induction M with
  | nil => intro _ r c p hp; simp at hp
  | cons p ps ih =>
    intro hInv r c q hq
    obtain ⟨hpair, hall⟩ := hInv
    rw [List.pairwise_cons] at hpair
    have hInv_ps : EchInv ps := ⟨hpair.2, fun x hx => hall x (by simp [hx])⟩
    have hp_row : p.row ≠ 0 ∧ p.col = first_set_bit p.row := hall p (by simp)
    have hp_bit : p.row.testBit p.col = true := by
      rw [hp_row.2]
      exact (first_set_bit_spec p.row (Nat.pos_of_ne_zero hp_row.1)).1
    have hps_clear : ∀ x ∈ ps, x.row.testBit p.col = false :=
      fun x hx => (hpair.1 x hx).2
    simp only [insert_reduce]
    rcases List.mem_cons.mp hq with hq1 | hq2
    · subst hq1
      split
      · next hbit =>
        refine insert_reduce_clear q.col ps _ _ ?_ hps_clear
        simp [Nat.testBit_xor, hbit, hp_bit]
      · next hbit =>
        refine insert_reduce_clear q.col ps _ _ ?_ hps_clear
        simpa using hbit
    · split
      · exact ih hInv_ps _ _ q hq2
      · exact ih hInv_ps _ _ q hq2

theorem span_reduce_zero : ∀ (M : List Pivot), EchInv M → ∀ v c,
    SpanB (pivotRows M) v → (insert_reduce M v c).1 = 0 := by
  intro M
  induction M with
  | nil =>
    intro _ v c hspan
    obtain ⟨m, hmlt, heq⟩ := hspan
    simp only [pivotRows, List.map_nil, List.length_nil, pow_zero,
      Nat.lt_one_iff] at hmlt heq
    subst hmlt
    rw [maskXorL_zero] at heq
    simpa [insert_reduce] using heq.symm
  | cons p ps ih =>
    intro hInv v c hspan
    obtain ⟨hpair, hall⟩ := hInv
    rw [List.pairwise_cons] at hpair
    have hInv_ps : EchInv ps := ⟨hpair.2, fun x hx => hall x (by simp [hx])⟩
    have hp_row : p.row ≠ 0 ∧ p.col = first_set_bit p.row := hall p (by simp)
    have hp_bit : p.row.testBit p.col = true := by
      rw [hp_row.2]
      exact (first_set_bit_spec p.row (Nat.pos_of_ne_zero hp_row.1)).1
    obtain ⟨m, hmlt, heq⟩ := hspan
    rw [pivotRows_cons] at heq
    rw [pivotRows_length, List.length_cons] at hmlt
    have hw_clear : (maskXorL (pivotRows ps) (m / 2)).testBit p.col = false := by
      refine maskXorL_clear p.col (pivotRows ps) ?_ (m / 2)
      intro x hx
      obtain ⟨q, hq, rfl⟩ := List.mem_map.mp hx
      exact (hpair.1 q hq).2
    have hmdiv : m / 2 < 2 ^ (pivotRows ps).length := by
      rw [pivotRows_length]
      have h2 : 2 ^ (ps.length + 1) = 2 ^ ps.length * 2 := by ring
      omega
    simp only [insert_reduce]
    have hm2 : m % 2 = 0 ∨ m % 2 = 1 := by omega
    rcases hm2 with hm0 | hm1
    · have hmeq : m = 2 * (m / 2) := by omega
      rw [hmeq, maskXorL_cons_even] at heq
      have hv_bit : v.testBit p.col = false := heq ▸ hw_clear
      rw [if_neg (by simp [hv_bit])]
      exact ih hInv_ps _ _ ⟨m / 2, hmdiv, heq⟩
    · have hmeq : m = 2 * (m / 2) + 1 := by omega
      rw [hmeq, maskXorL_cons_odd] at heq
      have hv_bit : v.testBit p.col = true := by
        rw [← heq]
        simp [Nat.testBit_xor, hp_bit, hw_clear]
      rw [if_pos hv_bit]
      have hvx : v ^^^ p.row = maskXorL (pivotRows ps) (m / 2) := by
        rw [← heq,
          Nat.xor_comm (p.row ^^^ maskXorL (pivotRows ps) (m / 2)) p.row]
        exact xor_cancel_left _ _
      rw [hvx]
      exact ih hInv_ps _ _ ⟨m / 2, hmdiv, rfl⟩

theorem lt_two_pow_succ_of_lt {a n : Nat} (h : a < 2 ^ n) : a < 2 ^ (n + 1) := by
  have h2 : (2 : Nat) ^ (n + 1) = 2 ^ n * 2 := by ring
  omega

/-- Combined invariant of the insertion run after `done` rows have been
inserted: the matrix is in echelon form, every stored pivot's combo decodes
(over the rows inserted so far) to its stored row, every inserted row lies
in the GF(2) span of the stored pivot rows, and every reported dependency
mask decodes to the zero vector. -/
def InvAll (done : List Nat) (s : SeqState) : Prop :=
  EchInv s.matrix ∧
  s.idx = done.length ∧
  (∀ p ∈ s.matrix, maskXorL done p.combo = p.row ∧ p.combo < 2 ^ done.length) ∧
  (∀ r ∈ done, SpanB (pivotRows s.matrix) r) ∧
  (∀ d ∈ s.deps, maskXorL done d.2 = 0 ∧ d.2 < 2 ^ done.length)

theorem seqStep_preserves (done : List Nat) (r : Nat) (s : SeqState)
    (h : InvAll done s) : InvAll (done ++ [r]) (seqStep s r) := by
  obtain ⟨hEch, hidx, hcombo, hspan, hdeps⟩ := h
  have hlen1 : (done ++ [r]).length = done.length + 1 := by simp
  have hpowlt : (2 : Nat) ^ done.length < 2 ^ (done.length + 1) := by
    have h2 : (2 : Nat) ^ (done.length + 1) = 2 ^ done.length * 2 := by ring
    have h3 : (0 : Nat) < 2 ^ done.length := Nat.pos_pow_of_pos _ (by norm_num)
    omega
  have hcombo' : ∀ p ∈ s.matrix, maskXorL (done ++ [r]) p.combo = p.row :=
    fun p hp => by
      rw [maskXorL_append done [r] _ (hcombo p hp).2]
      exact (hcombo p hp).1
  have hbase : maskXorL (done ++ [r]) (2 ^ s.idx) = r := by
    rw [maskXorL_two_pow, hidx, getD_append_len]
  have hrc_combo : maskXorL (done ++ [r])
      (insert_reduce s.matrix r (2 ^ s.idx)).2
      = (insert_reduce s.matrix r (2 ^ s.idx)).1 :=
    insert_reduce_combo (done ++ [r]) s.matrix hcombo' r (2 ^ s.idx) hbase
  have hrc_lt : (insert_reduce s.matrix r (2 ^ s.idx)).2
      < 2 ^ (done.length + 1) := by
    refine insert_reduce_combo_lt (done.length + 1) s.matrix r (2 ^ s.idx)
      ?_ ?_
    · rw [hidx]; exact hpowlt
    · exact fun p hp => lt_trans (hcombo p hp).2 hpowlt
  obtain ⟨mk, hmk_lt, hmk_eq⟩ := insert_reduce_span s.matrix r (2 ^ s.idx)
  by_cases hz : (insert_reduce s.matrix r (2 ^ s.idx)).1 = 0
  · have hstep : seqStep s r =
        ⟨s.matrix, s.idx + 1,
          s.deps ++ [(s.idx, (insert_reduce s.matrix r (2 ^ s.idx)).2)]⟩ := by
      simp [seqStep, insert_row, hz]
    rw [hstep]
    refine ⟨hEch, by simp [hidx], ?_, ?_, ?_⟩
    · exact fun p hp => ⟨hcombo' p hp, by
        rw [hlen1]; exact lt_trans (hcombo p hp).2 hpowlt⟩
    · intro x hx
      rcases List.mem_append.mp hx with hx1 | hx2
      · exact hspan x hx1
      · have hxr : x = r := by simpa using hx2
        subst hxr
        have hr_eq : maskXorL (pivotRows s.matrix) mk = x := by
          have h0 : x ^^^ maskXorL (pivotRows s.matrix) mk = 0 := by
            rw [← hmk_eq]; exact hz
          exact (Nat.xor_eq_zero.mp h0).symm
        exact ⟨mk, by rw [pivotRows_length]; exact hmk_lt, hr_eq⟩
    · intro d hd
      rcases List.mem_append.mp hd with hd1 | hd2
      · refine ⟨?_, by rw [hlen1]; exact lt_trans (hdeps d hd1).2 hpowlt⟩
        rw [maskXorL_append done [r] _ (hdeps d hd1).2]
        exact (hdeps d hd1).1
      · have hdr : d = (s.idx, (insert_reduce s.matrix r (2 ^ s.idx)).2) := by
          simpa using hd2
        subst hdr
        refine ⟨?_, by rw [hlen1]; exact hrc_lt⟩
        rw [hrc_combo]
        exact hz
  · have hstep : seqStep s r =
        ⟨s.matrix ++ [⟨(insert_reduce s.matrix r (2 ^ s.idx)).1,
            (insert_reduce s.matrix r (2 ^ s.idx)).2,
            first_set_bit (insert_reduce s.matrix r (2 ^ s.idx)).1⟩],
          s.idx + 1, s.deps⟩ := by
      simp [seqStep, insert_row, hz]
    rw [hstep]
    have hnew_pos : 0 < (insert_reduce s.matrix r (2 ^ s.idx)).1 :=
      Nat.pos_of_ne_zero hz
    have hfsb := first_set_bit_spec _ hnew_pos
    have havoid := insert_reduce_avoids s.matrix hEch r (2 ^ s.idx)
    have hcross : ∀ p ∈ s.matrix,
        p.col ≠ first_set_bit (insert_reduce s.matrix r (2 ^ s.idx)).1 ∧
        (insert_reduce s.matrix r (2 ^ s.idx)).1.testBit p.col = false := by
      intro p hp
      refine ⟨?_, havoid p hp⟩
      intro hcoleq
      have hcontra := havoid p hp
      rw [hcoleq, hfsb.1] at hcontra
      simp at hcontra
    have hrowsEq : pivotRows (s.matrix ++
        [⟨(insert_reduce s.matrix r (2 ^ s.idx)).1,
          (insert_reduce s.matrix r (2 ^ s.idx)).2,
          first_set_bit (insert_reduce s.matrix r (2 ^ s.idx)).1⟩])
        = pivotRows s.matrix ++ [(insert_reduce s.matrix r (2 ^ s.idx)).1] := by
      simp [pivotRows]
    refine ⟨⟨?_, ?_⟩, by simp [hidx], ?_, ?_, ?_⟩
    · rw [List.pairwise_append]
      refine ⟨hEch.1, by simp, ?_⟩
      intro a ha b hb
      have hbeq : b = ⟨(insert_reduce s.matrix r (2 ^ s.idx)).1,
          (insert_reduce s.matrix r (2 ^ s.idx)).2,
          first_set_bit (insert_reduce s.matrix r (2 ^ s.idx)).1⟩ := by
        simpa using hb
      subst hbeq
      exact hcross a ha
    · intro p hp
      rcases List.mem_append.mp hp with hp1 | hp2
      · exact hEch.2 p hp1
      · have hpe : p = ⟨(insert_reduce s.matrix r (2 ^ s.idx)).1,
            (insert_reduce s.matrix r (2 ^ s.idx)).2,
            first_set_bit (insert_reduce s.matrix r (2 ^ s.idx)).1⟩ := by
          simpa using hp2
        subst hpe
        exact ⟨hz, rfl⟩
    · intro p hp
      rcases List.mem_append.mp hp with hp1 | hp2
      · exact ⟨hcombo' p hp1, by
          rw [hlen1]; exact lt_trans (hcombo p hp1).2 hpowlt⟩
      · have hpe : p = ⟨(insert_reduce s.matrix r (2 ^ s.idx)).1,
            (insert_reduce s.matrix r (2 ^ s.idx)).2,
            first_set_bit (insert_reduce s.matrix r (2 ^ s.idx)).1⟩ := by
          simpa using hp2
        subst hpe
        exact ⟨hrc_combo, by rw [hlen1]; exact hrc_lt⟩
    · intro x hx
      have hmk_lt' : mk < 2 ^ (pivotRows s.matrix).length := by
        rw [pivotRows_length]; exact hmk_lt
      rcases List.mem_append.mp hx with hx1 | hx2
      · obtain ⟨mx, hmx_lt, hmx_eq⟩ := hspan x hx1
        refine ⟨mx, ?_, ?_⟩
        · rw [hrowsEq]
          simp only [List.length_append, List.length_singleton]
          exact lt_two_pow_succ_of_lt hmx_lt
        · rw [hrowsEq, maskXorL_append _ _ _ hmx_lt]
          exact hmx_eq
      · have hxr : x = r := by simpa using hx2
        subst hxr
        refine ⟨mk ^^^ 2 ^ (pivotRows s.matrix).length, ?_, ?_⟩
        · rw [hrowsEq]
          simp only [List.length_append, List.length_singleton]
          refine Nat.xor_lt_two_pow (lt_two_pow_succ_of_lt hmk_lt') ?_
          have h2 : (2:Nat) ^ ((pivotRows s.matrix).length + 1)
              = 2 ^ (pivotRows s.matrix).length * 2 := by ring
          have h3 : (0:Nat) < 2 ^ (pivotRows s.matrix).length :=
            Nat.pos_pow_of_pos _ (by norm_num)
          omega
        · rw [hrowsEq, maskXorL_linear, maskXorL_append _ _ _ hmk_lt',
            maskXorL_two_pow, getD_append_len, hmk_eq, xor_rot, Nat.xor_self,
            Nat.xor_zero]
    · intro d hd
      refine ⟨?_, by rw [hlen1]; exact lt_trans (hdeps d hd).2 hpowlt⟩
      rw [maskXorL_append done [r] _ (hdeps d hd).2]
      exact (hdeps d hd).1

theorem insertSeq_fold_inv (suffix : List Nat) : ∀ (done : List Nat)
    (s : SeqState), InvAll done s →
    InvAll (done ++ suffix) (List.foldl seqStep s suffix) := by
  induction suffix with
  | nil => intro done s h; simpa using h
  | cons r rest ih =>
    intro done s h
    have h1 := seqStep_preserves done r s h
    have h2 := ih (done ++ [r]) _ h1
    simpa using h2

theorem insertSeq_inv (rows : List Nat) : InvAll rows (insertSeq rows) := by
  have h0 : InvAll [] ⟨[], 0, []⟩ := by
    refine ⟨⟨List.Pairwise.nil, by simp⟩, rfl, by simp, by simp, by simp⟩
  simpa using insertSeq_fold_inv rows [] ⟨[], 0, []⟩ h0

-- ===== Claim C3 =====

/-- C3 (confirmed): whenever `insert_row` reports a dependency during the
sequential run (each accepted relation inserted with its identity combo
`2 ^ i`), the returned combination mask selects relation indices whose
originally inserted parity rows XOR to the all-zero vector, and the mask
only mentions relations inserted so far. -/
theorem C3_dependency_mask (rows : List Nat) (i c : Nat)
    (h : (i, c) ∈ (insertSeq rows).deps) :
    maskXorL rows c = 0 ∧ c < 2 ^ rows.length := by
  have hinv := insertSeq_inv rows
  exact ⟨(hinv.2.2.2.2 (i, c) h).1, (hinv.2.2.2.2 (i, c) h).2⟩

/-- C3 witness: inserting the rows 3 and 3 reports the dependency mask 3
(both relations), and indeed `3 XOR 3 = 0`. -/
theorem C3_witness :
    (1, 3) ∈ (insertSeq [3, 3]).deps ∧
    maskXorL [3, 3] 3 = 0 ∧ 3 < 2 ^ ([3, 3] : List Nat).length :=
  ⟨by decide, C3_dependency_mask [3, 3] 1 3 (by decide)⟩

-- ===== Claim C4 =====

/-- C4 (confirmed): echelon invariant of the matrix engine.  After any run
of insertions (every prefix of calls is itself such a run, so this covers
the state after every `insert_row` call): the recorded pivot columns are
pairwise distinct, no stored pivot row has a set bit at the pivot column of
any earlier-inserted pivot, each recorded pivot column is the lowest set
bit of its stored (nonzero) row, and re-reducing any previously inserted
row against the current pivot set yields the zero vector. -/
theorem C4_echelon_invariant (rows : List Nat) :
    ((insertSeq rows).matrix.Pairwise fun p q =>
      p.col ≠ q.col ∧ q.row.testBit p.col = false) ∧
    (∀ p ∈ (insertSeq rows).matrix,
      p.row ≠ 0 ∧ p.col = first_set_bit p.row) ∧
    (∀ r ∈ rows, (insert_reduce (insertSeq rows).matrix r 0).1 = 0) := by
  have hinv := insertSeq_inv rows
  refine ⟨hinv.1.1, hinv.1.2, ?_⟩
  intro r hr
  exact span_reduce_zero _ hinv.1 r 0 (hinv.2.2.2.1 r hr)

/-- C4 witness: after inserting rows 6 and 3, re-reducing the original row 3
against the stored pivots yields zero. -/
theorem C4_witness :
    3 ∈ ([6, 3] : List Nat) ∧
    (insert_reduce (insertSeq [6, 3]).matrix 3 0).1 = 0 :=
  ⟨by decide, (C4_echelon_invariant [6, 3]).2.2 3 (by decide)⟩

-- ===== Factor base and relation collection =====

/-- Trial-division loop of `is_prime_u64`: odd candidate divisors
`i = 3, 5, 7, ...` while `i * i <= x`.  One fuel unit per iteration; fuel
50000 covers every `x` up to `10^10`, far beyond the values the program
tests (large-prime candidates are at most `LP_BOUND = 10^8`). -/
def isPrimeAux : Nat → Nat → Nat → Bool
  | 0, _, _ => true
  | fuel + 1, i, x =>
    if i * i ≤ x then (if x % i = 0 then false else isPrimeAux fuel (i + 2) x)
    else true

/-- Embedding of `is_prime_u64(x)`: trial division up to the square root. -/
def is_prime_u64 (x : Nat) : Bool :=
  if x < 2 then false
  else if x % 2 = 0 then x == 2
  else isPrimeAux 50000 3 x

/-- Embedding of `generate_primes(limit, primes)`: the C sieve of
Eratosthenes marks exactly the primes up to `limit`; its output is the
increasing list of primes `<= limit` truncated to `MAX_FB` entries.  We
realise that output with the repository's own trial-division primality
test (they agree on the whole range the program can sieve). -/
def generate_primes (limit : Nat) : List Nat :=
  ((List.range (limit + 1)).filter (fun i => is_prime_u64 i)).take MAX_FB

/-- Binary-search loop of `int_root`: one fuel unit per iteration of
`while (low <= high)`.  The interval halves each round, so the fuel of 256
used below covers every `n < 2 ^ 128`. -/
def intRootGo (n : Nat) (d : Nat) : Nat → Nat → Nat → Nat → Nat
  | 0, _, _, ans => ans
  | fuel + 1, low, high, ans =>
    if low ≤ high then
      let mid := low + (high - low) / 2
      let p := pow_u128 mid d
      if p = 0 ∨ p > n then intRootGo n d fuel low (mid - 1) ans
      else intRootGo n d fuel (mid + 1) high mid
    else ans

/-- Embedding of `int_root(n, d)`: largest `x` with `x ^ d <= n`, found by
binary search (the `p == 0` branch catches full `u128` wrap of `pow_u128`). -/
def int_root (n : Nat) (d : Nat) : Nat := intRootGo n d 256 1 n 1

/-- Division loop of `factor_with_fb` for one prime:
`while (value % p == 0) { value /= p; if (exp < 250) exp++; }`.  Fuel 128
covers every positive `value < 2 ^ 128` for any `p >= 2`.  (For `value = 0`
the C loop would not terminate; the embedding then stops at fuel exhaustion
with value still 0, and the candidate is rejected downstream exactly as the
hung C program never accepts it.) -/
def divOut (p : Nat) : Nat → Nat → Nat → Nat × Nat
  | 0, v, e => (v, e)
  | fuel + 1, v, e =>
    if v % p = 0 then divOut p fuel (v / p) (if e < 250 then e + 1 else e)
    else (v, e)

/-- Trial-division pass of `factor_with_fb` over the whole factor base,
returning the remaining cofactor and the exponent list (one entry per
factor-base column). -/
def fbPass : List Nat → Nat → Nat × List Nat
  | [], v => (v, [])
  | p :: ps, v =>
    let ve := divOut p 128 v 0
    let rest := fbPass ps ve.1
    (rest.1, ve.2 :: rest.2)

/-- Embedding of `factor_with_fb(value, primes, fb_size, exp_out)`: divide
out every factor-base prime; accept if the cofactor is 1, or — the
large-prime variant — if it is a prime `<= LP_BOUND` and capacity remains,
in which case it is appended as a new factor-base column with exponent 1.
Returns (accepted, updated factor base, exponent list). -/
def factor_with_fb (v : Nat) (primes : List Nat) :
    Bool × List Nat × List Nat :=
  let pass := fbPass primes v
  if pass.1 = 1 then (true, primes, pass.2)
  else if pass.1 ≤ LP_BOUND ∧ primes.length < MAX_FB ∧
      is_prime_u64 pass.1 = true then
    (true, primes ++ [pass.1], pass.2 ++ [1])
  else (false, primes, pass.2)

/-- Parity row of an exponent list: bit `i` is set iff exponent `i` is odd
(the C loop `for (i < fb_size) if (rel.a_exp[i] % 2 == 1) set bit i`). -/
def buildRow : List Nat → Nat
  | [] => 0
  | e :: es => (if e % 2 = 1 then 1 else 0) + 2 * buildRow es

/-- The value sieved at offset `k`: `algebraic = pow_u128(m + k, degree) + 1`
(a `u128` computation, hence the wrap). -/
def algValue (m degree k : Nat) : Nat :=
  (pow_u128 (m + k) degree + 1) % U128LIM

/-- The approximate root used by `snfs_factor`:
`m = int_root(n > 1 ? n - 1 : n, degree)`. -/
def snfsM (n degree : Nat) : Nat :=
  int_root (if 1 < n then n - 1 else n) degree

/-- State of the collection loop of `snfs_factor`.  The first four fields
embed the program state (factor base, relation store, bit matrix, found
factor); the last four are observers recording facts about the run for the
claims — they never influence control flow: `trivialSeen` records that some
dependency was trivial, `acceptsAfterTrivial` counts relations accepted
after the first trivial congruence, `oobHit` records that a column index at
or beyond the fixed row width `64 * col_words` was used (a bit set while
building a row, or a stored pivot column tested during reduction), and
`insertOk` checks `matrix_rows <= relation_count < MAX_REL` at each
`insert_row` call. -/
structure SnfsState where
  primes : List Nat
  relations : List Relation
  matrix : List Pivot
  done : Option Nat
  trivialSeen : Bool
  acceptsAfterTrivial : Nat
  oobHit : Bool
  insertOk : Bool
deriving DecidableEq

/-- One iteration of the `for (k = 1; k <= window; k++)` loop of
`snfs_factor`.  The two guards mirror the early `break` (passing the state
through unchanged is equivalent, since the break condition is monotone) and
the `return factor` (recorded in `done`, after which iterations do
nothing).  On acceptance the relation is stored, its parity row built over
the current factor-base width, and the row inserted with identity combo
`2 ^ relation_count`; a dependency calls the extractor with the relation
store *before* this relation (the C loop reads `i < relation_count` with
the counter not yet incremented) and returns the factor only if it is
nontrivial, otherwise collection continues. -/
def stepSnfs (n degree m width target : Nat) (s : SnfsState) (k : Nat) :
    SnfsState :=
  if s.done.isSome then s
  else if MAX_REL ≤ s.relations.length ∨ target ≤ s.relations.length then s
  else
    match factor_with_fb (algValue m degree k) s.primes with
    | (false, _, _) => s
    | (true, primes2, exps) =>
      let row := buildRow exps
      let combo := 2 ^ s.relations.length
      let oob2 := s.oobHit || ((exps.drop width).any fun e => e % 2 == 1)
        || (s.matrix.any fun p => decide (width ≤ p.col))
      let insOk2 := s.insertOk &&
        decide (s.matrix.length ≤ s.relations.length) &&
        decide (s.relations.length < MAX_REL)
      match insert_row s.matrix row combo with
      | (some dep, _) =>
        let g := attempt_dependency dep s.relations primes2 n
        if 1 < g ∧ g < n then
          { s with primes := primes2, done := some g,
                   oobHit := oob2, insertOk := insOk2 }
        else
          { s with primes := primes2,
                   relations := s.relations ++ [⟨k, [], exps⟩],
                   trivialSeen := true,
                   acceptsAfterTrivial := s.acceptsAfterTrivial +
                     (if s.trivialSeen then 1 else 0),
                   oobHit := oob2, insertOk := insOk2 }
      | (none, matrix2) =>
        { s with primes := primes2,
                 relations := s.relations ++ [⟨k, [], exps⟩],
                 matrix := matrix2,
                 acceptsAfterTrivial := s.acceptsAfterTrivial +
                   (if s.trivialSeen then 1 else 0),
                 oobHit := oob2, insertOk := insOk2 }

/-- Fresh session state of `snfs_factor` for factor-base bound `B`. -/
def snfsInit (B : Nat) : SnfsState :=
  ⟨generate_primes B, [], [], none, false, 0, false, true⟩

/-- Embedding of `snfs_factor(n, degree, fb_bound, window)`: build the
factor base (empty base is the fatal error path returning 0), fix
`col_words` from the *initial* factor-base size, compute `m` and the target
relation count `fb_size + 16`, then run the collection loop for
`k = 1..window`. -/
def snfsRun (n degree B K : Nat) : SnfsState :=
  if (generate_primes B).length = 0 then snfsInit B
  else
    (List.range' 1 K).foldl
      (stepSnfs n degree (snfsM n degree)
        (64 * (((generate_primes B).length + 63) / 64))
        ((generate_primes B).length + 16))
      (snfsInit B)

/-- Return value of `snfs_factor`: the found factor, or the no-factor
sentinel 0. -/
def snfs_factor (n degree B K : Nat) : Nat :=
  (snfsRun n degree B K).done.getD 0

/-- Product of factor-base primes raised to the stored exponents (missing
exponent entries are the zero-initialised tail of the C array). -/
def prodPow : List Nat → List Nat → Nat
  | [], _ => 1
  | _ :: _, [] => 1
  | p :: ps, e :: es => p ^ e * prodPow ps es

-- ===== Support lemmas for the collection loop =====

theorem foldl_inv_generic {σ α : Type} (P : σ → Prop) (f : σ → α → σ)
    (hstep : ∀ s a, P s → P (f s a)) :
    ∀ (l : List α) (s : σ), P s → P (List.foldl f s l) := by
  intro l
  induction l with
  | nil => intro s h; exact h
  | cons a rest ih => intro s h; exact ih _ (hstep s a h)

theorem foldl_inv_mem {σ α : Type} (P : σ → Prop) (f : σ → α → σ) :
    ∀ (l : List α), (∀ s a, a ∈ l → P s → P (f s a)) →
    ∀ s, P s → P (List.foldl f s l) := by
  intro l
  induction l with
  | nil => intro _ s h; exact h
  | cons a rest ih =>
    intro hstep s h
    exact ih (fun s2 b hb h2 => hstep s2 b (by simp [hb]) h2) _
      (hstep s a (by simp) h)

theorem insert_row_none_eq (M : List Pivot) (r c : Nat) (M2 : List Pivot)
    (h : insert_row M r c = (none, M2)) :
    (insert_reduce M r c).1 ≠ 0 ∧
    M2 = M ++ [⟨(insert_reduce M r c).1, (insert_reduce M r c).2,
      first_set_bit (insert_reduce M r c).1⟩] := by
  simp only [insert_row] at h
  split at h
  · cases h
  · next hz =>
    refine ⟨hz, ?_⟩
    injection h with h1 h2
    exact h2.symm

theorem insert_row_some_eq (M : List Pivot) (r c : Nat) (d : Nat)
    (M2 : List Pivot) (h : insert_row M r c = (some d, M2)) :
    (insert_reduce M r c).1 = 0 ∧ d = (insert_reduce M r c).2 ∧ M2 = M := by
  simp only [insert_row] at h
  split at h
  · next hz =>
    injection h with h1 h2
    injection h1 with h1
    exact ⟨hz, h1.symm, h2.symm⟩
  · cases h

theorem divOut_zero (p : Nat) : ∀ fuel e, (divOut p fuel 0 e).1 = 0 := by
  intro fuel
  induction fuel with
  | zero => intro e; rfl
  | succ fuel ih =>
    intro e
    show (if 0 % p = 0 then divOut p fuel (0 / p) (if e < 250 then e + 1 else e)
      else (0, e)).1 = 0
    rw [if_pos (Nat.zero_mod p), Nat.zero_div]
    exact ih _

theorem fbPass_zero (P : List Nat) : (fbPass P 0).1 = 0 := by
  induction P with
  | nil => rfl
  | cons p ps ih =>
    show (fbPass ps (divOut p 128 0 0).1).1 = 0
    rw [divOut_zero p 128 0]
    exact ih

theorem is_prime_u64_two_le (x : Nat) (h : is_prime_u64 x = true) : 2 ≤ x := by
  by_contra hlt
  have h2 : x < 2 := by omega
  rw [is_prime_u64, if_pos h2] at h
  cases h

theorem factor_with_fb_zero (P : List Nat) : (factor_with_fb 0 P).1 = false := by
  simp only [factor_with_fb]
  have h1 : (fbPass P 0).1 = 0 := fbPass_zero P
  rw [h1]
  have hp : ¬ is_prime_u64 0 = true := by decide
  rw [if_neg (by norm_num), if_neg (by tauto)]

theorem divOut_spec (p : Nat) : ∀ fuel v e0, 1 ≤ v → e0 + fuel ≤ 250 →
    p ^ ((divOut p fuel v e0).2 - e0) * (divOut p fuel v e0).1 = v ∧
    1 ≤ (divOut p fuel v e0).1 ∧ e0 ≤ (divOut p fuel v e0).2 := by
  intro fuel
  induction fuel with
  | zero =>
    intro v e0 hv _
    exact ⟨by simp [divOut], hv, le_refl _⟩
  | succ fuel ih =>
    intro v e0 hv hcap
    by_cases hdvd : v % p = 0
    · have hstep : divOut p (fuel + 1) v e0 = divOut p fuel (v / p) (e0 + 1) := by
        show (if v % p = 0 then
          divOut p fuel (v / p) (if e0 < 250 then e0 + 1 else e0)
          else (v, e0)) = _
        rw [if_pos hdvd, if_pos (show e0 < 250 by omega)]
      rw [hstep]
      have hpdvd : p ∣ v := Nat.dvd_of_mod_eq_zero hdvd
      have hp1 : 1 ≤ v / p := by
        rcases Nat.eq_zero_or_pos p with hp0 | hppos
        · subst hp0
          rw [Nat.mod_zero] at hdvd
          omega
        · have hle := Nat.le_of_dvd (show 0 < v by omega) hpdvd
          have := Nat.div_pos hle hppos
          omega
      obtain ⟨hprod, hge1, hle⟩ := ih (v / p) (e0 + 1) hp1 (by omega)
      refine ⟨?_, hge1, by omega⟩
      have hexp : (divOut p fuel (v / p) (e0 + 1)).2 - e0
          = ((divOut p fuel (v / p) (e0 + 1)).2 - (e0 + 1)) + 1 := by omega
      rw [hexp, pow_succ]
      calc p ^ ((divOut p fuel (v / p) (e0 + 1)).2 - (e0 + 1)) * p *
            (divOut p fuel (v / p) (e0 + 1)).1
          = p * (p ^ ((divOut p fuel (v / p) (e0 + 1)).2 - (e0 + 1)) *
            (divOut p fuel (v / p) (e0 + 1)).1) := by ring
        _ = p * (v / p) := by rw [hprod]
        _ = v := Nat.mul_div_cancel' hpdvd
    · have hstep : divOut p (fuel + 1) v e0 = (v, e0) := by
        show (if v % p = 0 then
          divOut p fuel (v / p) (if e0 < 250 then e0 + 1 else e0)
          else (v, e0)) = (v, e0)
        rw [if_neg hdvd]
      rw [hstep]
      exact ⟨by simp, hv, le_refl _⟩

theorem fbPass_len (P : List Nat) : ∀ v, (fbPass P v).2.length = P.length := by
  induction P with
  | nil => intro v; rfl
  | cons p ps ih =>
    intro v
    show ((divOut p 128 v 0).2 :: (fbPass ps (divOut p 128 v 0).1).2).length
      = ps.length + 1
    simp [ih]

theorem fbPass_spec (P : List Nat) : ∀ v, 1 ≤ v →
    prodPow P (fbPass P v).2 * (fbPass P v).1 = v ∧ 1 ≤ (fbPass P v).1 := by
  induction P with
  | nil => intro v hv; exact ⟨by simp [fbPass, prodPow], hv⟩
  | cons p ps ih =>
    intro v hv
    obtain ⟨hd, hd1, _⟩ := divOut_spec p 128 v 0 hv (by norm_num)
    rw [Nat.sub_zero] at hd
    obtain ⟨hrest, hrest1⟩ := ih (divOut p 128 v 0).1 hd1
    constructor
    · show p ^ (divOut p 128 v 0).2 *
        prodPow ps (fbPass ps (divOut p 128 v 0).1).2 *
        (fbPass ps (divOut p 128 v 0).1).1 = v
      rw [mul_assoc, hrest]
      exact hd
    · exact hrest1

theorem prodPow_nil_exps (P : List Nat) : prodPow P [] = 1 := by
  cases P <;> rfl

theorem prodPow_extend (t : List Nat) : ∀ (P : List Nat) (es : List Nat),
    es.length ≤ P.length → prodPow (P ++ t) es = prodPow P es := by
  intro P
  induction P with
  | nil =>
    intro es hlen
    have hes : es = [] := List.length_eq_zero.mp (Nat.le_zero.mp (by simpa using hlen))
    subst hes
    simp [prodPow_nil_exps, prodPow]
  | cons p ps ih =>
    intro es hlen
    cases es with
    | nil => simp [prodPow_nil_exps]
    | cons e es' =>
      show p ^ e * prodPow (ps ++ t) es' = p ^ e * prodPow ps es'
      rw [ih es' (by simpa using hlen)]

theorem prodPow_append_one : ∀ (P es : List Nat) (q : Nat),
    es.length = P.length →
    prodPow (P ++ [q]) (es ++ [1]) = prodPow P es * q := by
  intro P
  induction P with
  | nil =>
    intro es q hlen
    have hes : es = [] := List.length_eq_zero.mp (by simpa using hlen)
    subst hes
    simp [prodPow]
  | cons p ps ih =>
    intro es q hlen
    cases es with
    | nil => simp at hlen
    | cons e es' =>
      show p ^ e * prodPow (ps ++ [q]) (es' ++ [1]) = p ^ e * prodPow ps es' * q
      rw [ih es' q (by simpa using hlen), mul_assoc]

theorem factor_with_fb_len (v : Nat) (P : List Nat) :
    (factor_with_fb v P).2.2.length = (factor_with_fb v P).2.1.length := by
  simp only [factor_with_fb]
  split_ifs <;> simp [fbPass_len]

theorem factor_with_fb_extend (v : Nat) (P : List Nat) :
    (factor_with_fb v P).2.1 = P ∨ ∃ q, (factor_with_fb v P).2.1 = P ++ [q] := by
  simp only [factor_with_fb]
  split_ifs
  · left; rfl
  · right; exact ⟨_, rfl⟩
  · left; rfl

theorem factor_with_fb_prod (v : Nat) (P : List Nat) (hv : 1 ≤ v)
    (ht : (factor_with_fb v P).1 = true) :
    prodPow (factor_with_fb v P).2.1 (factor_with_fb v P).2.2 = v := by
  obtain ⟨hpass, _⟩ := fbPass_spec P v hv
  simp only [factor_with_fb]
  split_ifs with h1 h2
  · rw [h1, mul_one] at hpass
    exact hpass
  · show prodPow (P ++ [(fbPass P v).1]) ((fbPass P v).2 ++ [1]) = v
    rw [prodPow_append_one P (fbPass P v).2 (fbPass P v).1 (fbPass_len P v)]
    exact hpass
  · exfalso
    simp only [factor_with_fb] at ht
    rw [if_neg h1, if_neg h2] at ht
    cases ht

theorem generate_primes_mem (limit p : Nat) (h : p ∈ generate_primes limit) :
    2 ≤ p ∧ p ≤ limit := by
  unfold generate_primes at h
  have h1 : p ∈ (List.range (limit + 1)).filter (fun i => is_prime_u64 i) :=
    List.mem_of_mem_take h
  obtain ⟨hmem, hpred⟩ := List.mem_filter.mp h1
  exact ⟨is_prime_u64_two_le p (by simpa using hpred),
    by have := List.mem_range.mp hmem; omega⟩

theorem stepSnfs_capacity (n degree m width target : Nat) (s : SnfsState)
    (k : Nat) (h : s.insertOk = true ∧ s.matrix.length ≤ s.relations.length) :
    (stepSnfs n degree m width target s k).insertOk = true ∧
    (stepSnfs n degree m width target s k).matrix.length ≤
      (stepSnfs n degree m width target s k).relations.length := by
  obtain ⟨hok, hlen⟩ := h
  simp only [stepSnfs]
  split
  · exact ⟨hok, hlen⟩
  split
  · exact ⟨hok, hlen⟩
  next hguard =>
    split
    · exact ⟨hok, hlen⟩
    next primes2 exps heq =>
      have hrel : s.relations.length < MAX_REL := by
        push_neg at hguard
        omega
      have hins : (s.insertOk &&
          decide (s.matrix.length ≤ s.relations.length) &&
          decide (s.relations.length < MAX_REL)) = true := by
        simp [hok, hlen, hrel]
      split
      next dep M2 heq2 =>
        split
        · exact ⟨by simpa using hins, by simpa using hlen⟩
        · refine ⟨by simpa using hins, ?_⟩
          simp only [List.length_append, List.length_singleton]
          omega
      next matrix2 heq2 =>
        have hm2 : matrix2.length = s.matrix.length + 1 := by
          obtain ⟨_, h2⟩ := insert_row_none_eq _ _ _ _ heq2
          simp [h2]
        refine ⟨by simpa using hins, ?_⟩
        simp only [hm2, List.length_append, List.length_singleton]
        omega

-- ===== Claim C10 =====

/-- C10 (confirmed): matrix capacity invariant.  Throughout every run of
`snfs_factor`, at every `insert_row` call `matrix_rows <= relation_count`
and `relation_count < MAX_REL` hold (the `insertOk` observer checks exactly
these conditions at each call, and the identity-combo bit index is that
same `relation_count`), so the stores into `row_bits[matrix_rows]`,
`combo_bits[matrix_rows]`, `pivot_col[matrix_rows]` and the combo bit at
index `relation_count` stay within the fixed capacity of `MAX_REL` rows. -/
theorem C10_capacity_invariant (n degree B K : Nat) :
    (snfsRun n degree B K).insertOk = true := by
  unfold snfsRun
  split
  · rfl
  · exact (foldl_inv_generic
      (fun s => s.insertOk = true ∧ s.matrix.length ≤ s.relations.length)
      _ (fun s k hs => stepSnfs_capacity _ _ _ _ _ s k hs)
      (List.range' 1 K) (snfsInit B) ⟨rfl, by simp [snfsInit]⟩).1

theorem stepSnfs_smooth (n degree m width target : Nat) (s : SnfsState)
    (k : Nat)
    (h : ∀ rel ∈ s.relations, rel.a_exp.length ≤ s.primes.length ∧
      prodPow s.primes rel.a_exp = algValue m degree rel.a_offset) :
    ∀ rel ∈ (stepSnfs n degree m width target s k).relations,
      rel.a_exp.length ≤ (stepSnfs n degree m width target s k).primes.length ∧
      prodPow (stepSnfs n degree m width target s k).primes rel.a_exp
        = algValue m degree rel.a_offset := by
  simp only [stepSnfs]
  split
  · exact h
  split
  · exact h
  next hguard =>
    split
    · exact h
    next primes2 exps heq =>
      have hv1 : 1 ≤ algValue m degree k := by
        by_contra hv0
        have h0 : algValue m degree k = 0 := by omega
        rw [h0] at heq
        have hz := factor_with_fb_zero s.primes
        rw [heq] at hz
        cases hz
      have hP2 : (factor_with_fb (algValue m degree k) s.primes).2.1 = primes2 := by
        rw [heq]
      have hES : (factor_with_fb (algValue m degree k) s.primes).2.2 = exps := by
        rw [heq]
      have hT : (factor_with_fb (algValue m degree k) s.primes).1 = true := by
        rw [heq]
      have hprod : prodPow primes2 exps = algValue m degree k := by
        have hpp := factor_with_fb_prod (algValue m degree k) s.primes hv1 hT
        rw [hP2, hES] at hpp
        exact hpp
      have hlen2 : exps.length = primes2.length := by
        have hll := factor_with_fb_len (algValue m degree k) s.primes
        rw [hP2, hES] at hll
        exact hll
      have hext : primes2 = s.primes ∨ ∃ q, primes2 = s.primes ++ [q] := by
        have hee := factor_with_fb_extend (algValue m degree k) s.primes
        rw [hP2] at hee
        exact hee
      have hold : ∀ rel ∈ s.relations, rel.a_exp.length ≤ primes2.length ∧
          prodPow primes2 rel.a_exp = algValue m degree rel.a_offset := by
        intro rel hrel
        obtain ⟨hl, hp⟩ := h rel hrel
        rcases hext with hsame | ⟨q, happ⟩
        · rw [hsame]; exact ⟨hl, hp⟩
        · subst happ
          refine ⟨by simp; omega, ?_⟩
          rw [prodPow_extend [q] s.primes rel.a_exp hl]
          exact hp
      have hnew : exps.length ≤ primes2.length ∧
          prodPow primes2 exps = algValue m degree k := ⟨by omega, hprod⟩
      split
      next dep M2 heq2 =>
        split
        · intro rel hrel
          exact hold rel (by simpa using hrel)
        · intro rel hrel
          rcases (by simpa using hrel :
              rel ∈ s.relations ∨ rel = ⟨k, [], exps⟩) with h1 | h2
          · simpa using hold rel h1
          · subst h2
            simpa using hnew
      next matrix2 heq2 =>
        intro rel hrel
        rcases (by simpa using hrel :
            rel ∈ s.relations ∨ rel = ⟨k, [], exps⟩) with h1 | h2
        · simpa using hold rel h1
        · subst h2
          simpa using hnew

-- ===== Claim C5 =====

/-- C5 (confirmed): smoothness invariant.  For every relation stored by
`snfs_factor` (offset `k`, so `a = m + k`), the product over all
factor-base columns of (column prime) raised to the stored exponent —
including any large-prime column appended for that relation (and with the
zero exponents of later columns contributing factor 1) — equals the sieved
value `v = a ^ d + 1` (the `u128` value the program computed and factored)
exactly.  The exponent cap of 250 never saturates, since `v < 2 ^ 128`
bounds every exponent by 127. -/
theorem C5_smoothness_invariant (n degree B K : Nat) (rel : Relation)
    (h : rel ∈ (snfsRun n degree B K).relations) :
    prodPow (snfsRun n degree B K).primes rel.a_exp
      = algValue (snfsM n degree) degree rel.a_offset := by
  unfold snfsRun at h ⊢
  by_cases h0 : (generate_primes B).length = 0
  · rw [if_pos h0] at h
    simp [snfsInit] at h
  · rw [if_neg h0] at h ⊢
    have hinv := foldl_inv_generic
      (fun s => ∀ rel ∈ s.relations,
        rel.a_exp.length ≤ s.primes.length ∧
        prodPow s.primes rel.a_exp
          = algValue (snfsM n degree) degree rel.a_offset)
      _ (fun s k hs => stepSnfs_smooth n degree (snfsM n degree)
          (64 * (((generate_primes B).length + 63) / 64))
          ((generate_primes B).length + 16) s k hs)
      (List.range' 1 K) (snfsInit B) (by simp [snfsInit])
    exact (hinv rel h).2

/-- C5 witness: in the run `snfsRun 15 4 2 1` the stored relation has
offset 1 and exponents `[0, 1]` over the factor base `[2, 17]`, and indeed
`2 ^ 0 * 17 ^ 1 = 17 = 2 ^ 4 + 1`. -/
theorem C5_witness :
    (⟨1, [], [0, 1]⟩ : Relation) ∈ (snfsRun 15 4 2 1).relations ∧
    prodPow (snfsRun 15 4 2 1).primes (⟨1, [], [0, 1]⟩ : Relation).a_exp
      = algValue (snfsM 15 4) 4 (⟨1, [], [0, 1]⟩ : Relation).a_offset :=
  ⟨by decide, C5_smoothness_invariant 15 4 2 1 _ (by decide)⟩

theorem buildRow_lt (es : List Nat) : buildRow es < 2 ^ es.length := by
  induction es with
  | nil => simp [buildRow]
  | cons e es ih =>
    show (if e % 2 = 1 then 1 else 0) + 2 * buildRow es < 2 ^ (es.length + 1)
    have h2 : 2 ^ (es.length + 1) = 2 ^ es.length * 2 := by ring
    split <;> omega

theorem insert_reduce_row_lt (w : Nat) : ∀ (M : List Pivot) (r c : Nat),
    r < 2 ^ w → (∀ p ∈ M, p.row < 2 ^ w) →
    (insert_reduce M r c).1 < 2 ^ w := by
  intro M
  induction M with
  | nil => intro r c hr _; simpa [insert_reduce] using hr
  | cons p ps ih =>
    intro r c hr hM
    have hp : p.row < 2 ^ w := hM p (by simp)
    have hps : ∀ q ∈ ps, q.row < 2 ^ w := fun q hq => hM q (by simp [hq])
    simp only [insert_reduce]
    split
    · exact ih _ _ (Nat.xor_lt_two_pow hr hp) hps
    · exact ih _ _ hr hps

theorem fsb_lt_of_lt (x w : Nat) (hx : x ≠ 0) (hlt : x < 2 ^ w) :
    first_set_bit x < w := by
  have h1 := (first_set_bit_spec x (Nat.pos_of_ne_zero hx)).1
  have h2 := Nat.testBit_implies_ge h1
  by_contra hge
  push_neg at hge
  have h3 : (2 : Nat) ^ w ≤ 2 ^ first_set_bit x :=
    Nat.pow_le_pow_right (by norm_num) hge
  omega

theorem stepSnfs_width (n degree m width target : Nat) (s : SnfsState)
    (k : Nat)
    (h : width < s.primes.length ∨ (s.oobHit = false ∧
      ∀ p ∈ s.matrix, p.col < width ∧ p.row < 2 ^ width)) :
    width < (stepSnfs n degree m width target s k).primes.length ∨
    ((stepSnfs n degree m width target s k).oobHit = false ∧
      ∀ p ∈ (stepSnfs n degree m width target s k).matrix,
        p.col < width ∧ p.row < 2 ^ width) := by
  simp only [stepSnfs]
  split
  · exact h
  split
  · exact h
  next hguard =>
    split
    · exact h
    next primes2 exps heq =>
      have hext : primes2 = s.primes ∨ ∃ q, primes2 = s.primes ++ [q] := by
        have hee := factor_with_fb_extend (algValue m degree k) s.primes
        rw [heq] at hee
        exact hee
      have hplen : s.primes.length ≤ primes2.length := by
        rcases hext with hsame | ⟨q, happ⟩
        · rw [hsame]
        · subst happ; simp
      have hlen2 : exps.length = primes2.length := by
        have hll := factor_with_fb_len (algValue m degree k) s.primes
        rw [heq] at hll
        exact hll
      by_cases hwide : width < primes2.length
      · split
        next dep M2 heq2 =>
          split
          · left; simpa using hwide
          · left; simpa using hwide
        next matrix2 heq2 =>
          left; simpa using hwide
      · push_neg at hwide
        rcases h with hbad | ⟨hoob, hmat⟩
        · omega
        · have hdrop : exps.drop width = [] :=
            List.drop_eq_nil_of_le (by omega)
          have hany1 : ((exps.drop width).any fun e => e % 2 == 1) = false := by
            rw [hdrop]; rfl
          have hany2 : (s.matrix.any fun p => decide (width ≤ p.col)) = false := by
            rw [List.any_eq_false]
            intro p hp
            simpa using Nat.not_le.mpr (hmat p hp).1
          have hoob2 : (s.oobHit || ((exps.drop width).any fun e => e % 2 == 1)
              || (s.matrix.any fun p => decide (width ≤ p.col))) = false := by
            rw [hoob, hany1, hany2]
            rfl
          have hrowlt : buildRow exps < 2 ^ width :=
            lt_of_lt_of_le (buildRow_lt exps)
              (Nat.pow_le_pow_right (by norm_num) (by omega))
          split
          next dep M2 heq2 =>
            split
            · right
              refine ⟨by simpa using hoob2, ?_⟩
              intro p hp
              exact hmat p (by simpa using hp)
            · right
              refine ⟨by simpa using hoob2, ?_⟩
              intro p hp
              exact hmat p (by simpa using hp)
          next matrix2 heq2 =>
            obtain ⟨hnz, hM2⟩ := insert_row_none_eq _ _ _ _ heq2
            right
            refine ⟨by simpa using hoob2, ?_⟩
            intro p hp
            have hp2 : p ∈ s.matrix ++
                [⟨(insert_reduce s.matrix (buildRow exps)
                    (2 ^ s.relations.length)).1,
                  (insert_reduce s.matrix (buildRow exps)
                    (2 ^ s.relations.length)).2,
                  first_set_bit (insert_reduce s.matrix (buildRow exps)
                    (2 ^ s.relations.length)).1⟩] := by
              rw [← hM2]
              simpa using hp
            rcases List.mem_append.mp hp2 with h1 | h2
            · exact hmat p h1
            · have hrlt : (insert_reduce s.matrix (buildRow exps)
                  (2 ^ s.relations.length)).1 < 2 ^ width :=
                insert_reduce_row_lt width s.matrix _ _ hrowlt
                  (fun q hq => (hmat q hq).2)
              have hpe : p = ⟨(insert_reduce s.matrix (buildRow exps)
                    (2 ^ s.relations.length)).1,
                  (insert_reduce s.matrix (buildRow exps)
                    (2 ^ s.relations.length)).2,
                  first_set_bit (insert_reduce s.matrix (buildRow exps)
                    (2 ^ s.relations.length)).1⟩ := by
                simpa using h2
              subst hpe
              exact ⟨fsb_lt_of_lt _ width hnz hrlt, hrlt⟩

-- ===== Claim C6 =====

set_option maxRecDepth 100000

/-- C6 counterexample: with `n = 1000003` (prime, so no dependency ever
extracts a factor), `degree = 3`, `B = 227` (49 primes, so the row width is
fixed at `64 * col_words = 64`) and `K = 24`, large-prime acceptances grow
the factor base to 65 columns and the 24th accepted relation sets a parity
bit at column index 64 — at or beyond `64 * col_words`, contradicting the
claim (in the C program this write lands outside the row's words). -/
theorem C6_counterexample : (snfsRun 1000003 3 227 24).oobHit = true := by
  decide

/-- C6 (corrected): the no-drift guarantee holds exactly when the factor
base never outgrows the fixed row width: if at the end of the run the
factor-base size is still at most `64 * col_words` (the width fixed at
session start; factor-base growth is monotone), then every column index at
which a parity bit is set while building a row, and every pivot column
tested or XORed during `insert_row` reduction, lies strictly below
`64 * col_words`.  When large primes push the factor base past that width,
bit indices at or beyond it do occur (see the counterexample). -/
theorem C6_no_drift_within_width (n degree B K : Nat)
    (h : (snfsRun n degree B K).primes.length ≤
      64 * (((generate_primes B).length + 63) / 64)) :
    (snfsRun n degree B K).oobHit = false := by
  unfold snfsRun at h ⊢
  by_cases h0 : (generate_primes B).length = 0
  · rw [if_pos h0]
    rfl
  · rw [if_neg h0] at h ⊢
    have hinv := foldl_inv_generic
      (fun s => 64 * (((generate_primes B).length + 63) / 64)
          < s.primes.length ∨
        (s.oobHit = false ∧
          ∀ p ∈ s.matrix,
            p.col < 64 * (((generate_primes B).length + 63) / 64) ∧
            p.row < 2 ^ (64 * (((generate_primes B).length + 63) / 64))))
      _ (fun s k hs => stepSnfs_width n degree (snfsM n degree)
          (64 * (((generate_primes B).length + 63) / 64))
          ((generate_primes B).length + 16) s k hs)
      (List.range' 1 K) (snfsInit B)
      (Or.inr ⟨rfl, by simp [snfsInit]⟩)
    rcases hinv with hbad | ⟨hoob, _⟩
    · omega
    · exact hoob

/-- C6 witness for the corrected claim: in the run `snfsRun 7 3 3 2` the
factor base ends with 3 entries, within the width 64, and no out-of-width
bit index is ever used. -/
theorem C6_witness :
    (snfsRun 7 3 3 2).primes.length ≤
      64 * (((generate_primes 3).length + 63) / 64) ∧
    (snfsRun 7 3 3 2).oobHit = false :=
  ⟨by decide, C6_no_drift_within_width 7 3 3 2 (by decide)⟩

theorem fbPass_no_dvd : ∀ (P : List Nat) (v : Nat),
    (∀ p ∈ P, ¬ v % p = 0) → (fbPass P v).1 = v := by
  intro P
  induction P with
  | nil => intro v _; rfl
  | cons p ps ih =>
    intro v hnd
    have hdo : divOut p 128 v 0 = (v, 0) := by
      show (if v % p = 0 then divOut p 127 (v / p) (if 0 < 250 then 0 + 1 else 0)
        else (v, 0)) = (v, 0)
      rw [if_neg (hnd p (by simp))]
    show (fbPass ps (divOut p 128 v 0).1).1 = v
    rw [hdo]
    exact ih v (fun q hq => hnd q (by simp [hq]))

theorem generate_primes_two_le_bound (B : Nat)
    (h0 : (generate_primes B).length ≠ 0) : 2 ≤ B := by
  have hne : generate_primes B ≠ [] := by
    intro hnil
    rw [hnil] at h0
    simp at h0
  obtain ⟨p, hp⟩ := List.exists_mem_of_ne_nil _ hne
  obtain ⟨hp2, hpB⟩ := generate_primes_mem B p hp
  omega

theorem factor_with_fb_reject (B v : Nat)
    (h0 : (generate_primes B).length ≠ 0)
    (hminfac : B < Nat.minFac v)
    (hlp : LP_BOUND < v ∨ is_prime_u64 v = false) :
    (factor_with_fb v (generate_primes B)).1 = false := by
  have hB2 : 2 ≤ B := generate_primes_two_le_bound B h0
  have hv2 : 2 ≤ v := by
    rcases Nat.lt_or_ge v 2 with hv | hv
    · interval_cases v
      · rw [Nat.minFac_zero] at hminfac; omega
      · rw [Nat.minFac_one] at hminfac; omega
    · exact hv
  have hnd : ∀ p ∈ generate_primes B, ¬ v % p = 0 := by
    intro p hp hmod
    obtain ⟨hp2, hpB⟩ := generate_primes_mem B p hp
    have hle := Nat.minFac_le_of_dvd hp2 (Nat.dvd_of_mod_eq_zero hmod)
    omega
  have hpass : (fbPass (generate_primes B) v).1 = v :=
    fbPass_no_dvd (generate_primes B) v hnd
  simp only [factor_with_fb]
  rw [hpass, if_neg (by omega : ¬ v = 1)]
  rw [if_neg ?hcond]
  case hcond =>
    rcases hlp with h1 | h1
    · intro hc
      omega
    · intro hc
      rw [h1] at hc
      cases hc.2.2

-- ===== Claim C7 =====

/-- C7 counterexample: with `n = 15`, `degree = 4`, `B = 2`, `K = 1` the
single candidate value is `v = 2 ^ 4 + 1 = 17`, whose least prime factor 17
exceeds `B = 2` — yet the candidate IS accepted, via the large-prime rule
(17 is itself a prime below `LP_BOUND`), refuting the claim that no
relation is ever accepted under that hypothesis. -/
theorem C7_counterexample :
    (∀ k, 1 ≤ k → k ≤ 1 →
      2 < Nat.minFac (algValue (snfsM 15 4) 4 k)) ∧
    (snfsRun 15 4 2 1).relations.length = 1 := by
  constructor
  · intro k h1 h2
    have hk : k = 1 := by omega
    subst hk
    have hv : algValue (snfsM 15 4) 4 1 = 17 := by decide
    rw [hv]
    norm_num
  · decide

/-- C7 (corrected): if `B` is smaller than the least prime factor of every
candidate value `v = a ^ d + 1` for `a = m + k`, `k = 1..K`, and
additionally no candidate value is itself accepted by the large-prime rule
(that is, each `v` exceeds `LP_BOUND` or fails the program's primality
test), then no relation is ever accepted and `snfs_factor` returns its
no-factor sentinel 0 (upon which the caller invokes the Pollard-rho
fallback).  The extra large-prime condition is forced by the
counterexample. -/
theorem C7_boundary_amended (n degree B K : Nat)
    (h : ∀ k, 1 ≤ k → k ≤ K →
      B < Nat.minFac (algValue (snfsM n degree) degree k) ∧
      (LP_BOUND < algValue (snfsM n degree) degree k ∨
        is_prime_u64 (algValue (snfsM n degree) degree k) = false)) :
    (snfsRun n degree B K).relations = [] ∧ snfs_factor n degree B K = 0 := by
  unfold snfs_factor snfsRun
  by_cases h0 : (generate_primes B).length = 0
  · rw [if_pos h0]
    exact ⟨rfl, rfl⟩
  · rw [if_neg h0]
    have hstep : ∀ (s : SnfsState) (k : Nat), k ∈ List.range' 1 K →
        s = snfsInit B →
        stepSnfs n degree (snfsM n degree)
          (64 * (((generate_primes B).length + 63) / 64))
          ((generate_primes B).length + 16) s k = snfsInit B := by
      intro s k hk hs
      subst hs
      have hk2 : 1 ≤ k ∧ k < 1 + K := List.mem_range'_1.mp hk
      obtain ⟨hminfac, hlp⟩ := h k hk2.1 (by omega)
      simp only [stepSnfs]
      split
      · rfl
      split
      · rfl
      next hguard =>
        split
        · rfl
        next primes2 exps heq =>
          exfalso
          have hrej := factor_with_fb_reject B
            (algValue (snfsM n degree) degree k) h0 hminfac hlp
          have : (snfsInit B).primes = generate_primes B := rfl
          rw [this] at heq
          rw [heq] at hrej
          cases hrej
    have hinv := foldl_inv_mem (fun s => s = snfsInit B) _
      (List.range' 1 K) hstep (snfsInit B) rfl
    rw [hinv]
    exact ⟨rfl, rfl⟩

/-- C7 witness for the corrected claim: `n = 5`, `degree = 3`, `B = 2`,
`K = 1` gives the single candidate `v = 2 ^ 3 + 1 = 9 = 3 ^ 2`: its least
prime factor 3 exceeds `B = 2`, it is not prime, so nothing is accepted and
the sentinel 0 is returned. -/
theorem C7_witness :
    (2 < Nat.minFac (algValue (snfsM 5 3) 3 1) ∧
      is_prime_u64 (algValue (snfsM 5 3) 3 1) = false) ∧
    (snfsRun 5 3 2 1).relations = [] ∧ snfs_factor 5 3 2 1 = 0 := by
  refine ⟨⟨?_, by decide⟩, ?_⟩
  · have hv : algValue (snfsM 5 3) 3 1 = 9 := by decide
    rw [hv]
    norm_num
  · refine C7_boundary_amended 5 3 2 1 (fun k h1 h2 => ?_)
    have hk : k = 1 := by omega
    subst hk
    constructor
    · have hv : algValue (snfsM 5 3) 3 1 = 9 := by decide
      rw [hv]
      norm_num
    · right
      decide

-- ===== Claim C2 =====

/-- C2 counterexample: with `n = 7`, `degree = 3`, `B = 3`, `K = 2`, the
first candidate (`v = 2 ^ 3 + 1 = 9 = 3 ^ 2`) yields an immediate
dependency whose congruence is trivial (the extractor returns 0), and the
loop then CONTINUES: a further relation (`v = 3 ^ 3 + 1 = 28`) is accepted
after the trivial congruence, refuting the claim that the attempt ends
immediately. -/
theorem C2_counterexample :
    (snfsRun 7 3 3 2).trivialSeen = true ∧
    (snfsRun 7 3 3 2).acceptsAfterTrivial = 1 := by
  decide

/-- C2 (corrected): a trivial congruence does not end the attempt.  When an
iteration of the collection loop accepts a relation, finds a dependency,
and the extractor fails to produce a nontrivial factor, the step leaves the
run unfinished (`done` stays `none`) and still increments the relation
count, so collection proceeds with subsequent offsets; the attempt ends
only via the window/target/cap bounds or a later nontrivial factor. -/
theorem C2_trivial_congruence_continues (n degree m width target : Nat)
    (s : SnfsState) (k : Nat)
    (h1 : s.done = none)
    (h2 : s.relations.length < MAX_REL)
    (h3 : s.relations.length < target)
    (primes2 exps : List Nat)
    (h4 : factor_with_fb (algValue m degree k) s.primes = (true, primes2, exps))
    (dep : Nat) (M2 : List Pivot)
    (h5 : insert_row s.matrix (buildRow exps) (2 ^ s.relations.length)
      = (some dep, M2))
    (h6 : ¬(1 < attempt_dependency dep s.relations primes2 n ∧
      attempt_dependency dep s.relations primes2 n < n)) :
    (stepSnfs n degree m width target s k).done = none ∧
    (stepSnfs n degree m width target s k).relations.length
      = s.relations.length + 1 := by
  simp only [stepSnfs]
  rw [h1]
  simp only [Option.isSome_none, Bool.false_eq_true, if_false]
  rw [if_neg (show ¬(MAX_REL ≤ s.relations.length ∨
    target ≤ s.relations.length) from by omega)]
  simp only [h4, h5]
  rw [if_neg h6]
  simp [h1]

/-- C2 witness: the first iteration of the run `(n, degree, B, K) =
(7, 3, 3, 2)`: the relation `v = 9 = 3 ^ 2` has an all-zero parity row,
`insert_row` reports the dependency at once, the extractor returns 0
(trivial congruence), and the step continues with the relation count
incremented and `done` still unset. -/
theorem C2_witness :
    (snfsInit 3).done = none ∧
    (snfsInit 3).relations.length < MAX_REL ∧
    (snfsInit 3).relations.length < 18 ∧
    factor_with_fb (algValue 1 3 1) (snfsInit 3).primes
      = (true, [2, 3], [0, 2]) ∧
    insert_row (snfsInit 3).matrix (buildRow [0, 2])
      (2 ^ (snfsInit 3).relations.length) = (some 1, []) ∧
    ¬(1 < attempt_dependency 1 (snfsInit 3).relations [2, 3] 7 ∧
      attempt_dependency 1 (snfsInit 3).relations [2, 3] 7 < 7) ∧
    (stepSnfs 7 3 1 64 18 (snfsInit 3) 1).done = none ∧
    (stepSnfs 7 3 1 64 18 (snfsInit 3) 1).relations.length
      = (snfsInit 3).relations.length + 1 :=
  ⟨rfl, by decide, by decide, by decide, by decide, by decide,
   (C2_trivial_congruence_continues 7 3 1 64 18 (snfsInit 3) 1 rfl (by decide)
      (by decide) [2, 3] [0, 2] (by decide) 1 [] (by decide) (by decide)).1,
   (C2_trivial_congruence_continues 7 3 1 64 18 (snfsInit 3) 1 rfl (by decide)
      (by decide) [2, 3] [0, 2] (by decide) 1 [] (by decide) (by decide)).2⟩
